import Mathlib

/- Verification of the llm-council deliberation orchestrator.
   Shallow embedding of the backend's pure logic:
   date resolution (tool_orchestration.py), retry policy (lmstudio.py),
   MCP registry busy tracking (mcp/registry.py), and the council's
   ranking/rating/aggregation and post-processing (council.py). -/

namespace Council

/-! ## Basic character and list utilities -/

/-- Python whitespace characters (ASCII subset), as used by str.strip and regex \s. -/
def isWhite (c : Char) : Bool :=
  c = ' ' || c = '\t' || c = '\n' || c = '\r' || c = '\x0b' || c = '\x0c'

/-- ASCII decimal digit test, as regex \d on ASCII text. -/
def isDigitC (c : Char) : Bool := '0' ≤ c && c ≤ '9'

/-- ASCII letter test; models regex [A-Z] under re.IGNORECASE on ASCII text. -/
def isAlphaC (c : Char) : Bool :=
  decide ((65 ≤ c.toNat ∧ c.toNat ≤ 90) ∨ (97 ≤ c.toNat ∧ c.toNat ≤ 122))

/-- Python str.upper on ASCII text. -/
def pyUpper (t : List Char) : List Char := t.map Char.toUpper

/-- Drop leading whitespace. -/
def frontStrip (t : List Char) : List Char := t.dropWhile isWhite

/-- Python str.strip(): remove leading and trailing whitespace. -/
def pyStrip (t : List Char) : List Char :=
  List.rdropWhile isWhite (t.dropWhile isWhite)

/-- First occurrence of `sep` inside `t`: returns the part before and after it. -/
def findSub (sep : List Char) : List Char → Option (List Char × List Char)
  | [] => if sep = [] then some ([], []) else none
  | c :: cs =>
    if sep.isPrefixOf (c :: cs) then some ([], (c :: cs).drop sep.length)
    else (findSub sep cs).map (fun p => (c :: p.1, p.2))

/-- Substring containment, Python's `sep in t`. -/
def containsSub (sep t : List Char) : Bool := (findSub sep t).isSome

/-! ## Date resolution (src/backend/tool_orchestration.py, resolve_date_reference)

A `datetime` date is embedded as its proleptic-Gregorian ordinal
(`datetime.date.toordinal`, 1 = 0001-01-01); `weekday()` is Monday = 0. -/

/-- Python date.weekday(): Monday = 0, for a date given by its ordinal. -/
def weekdayZ (o : ℤ) : ℤ := (o - 1) % 7

/-- Gregorian (year, month, day) from an ordinal, era-based algorithm. -/
def civilFromDays (o : ℤ) : ℤ × ℤ × ℤ :=
  let z := o + 305
  let era := Int.fdiv z 146097
  let doe := z - era * 146097
  let yoe := (doe - doe / 1460 + doe / 36524 - doe / 146096) / 365
  let y0 := yoe + era * 400
  let doy := doe - (365 * yoe + yoe / 4 - yoe / 100)
  let mp := (5 * doy + 2) / 153
  let d := doy - (153 * mp + 2) / 5 + 1
  let m := mp + (if mp < 10 then 3 else (-9))
  (y0 + (if m ≤ 2 then 1 else 0), m, d)

/-- Zero-pad to two digits. -/
def pad2 (n : ℤ) : String := if n < 10 then "0" ++ toString n else toString n

/-- Zero-pad to four digits. -/
def pad4 (n : ℤ) : String :=
  if n < 10 then "000" ++ toString n
  else if n < 100 then "00" ++ toString n
  else if n < 1000 then "0" ++ toString n
  else toString n

/-- strftime of an ordinal with format %Y-%m-%d. -/
def fmtD (o : ℤ) : String :=
  let c := civilFromDays o
  pad4 c.1 ++ "-" ++ pad2 c.2.1 ++ "-" ++ pad2 c.2.2

/-- The day-name table of resolve_date_reference, in source order. -/
def dayPairs : List (String × ℤ) :=
  [("MONDAY", 0), ("TUESDAY", 1), ("WEDNESDAY", 2), ("THURSDAY", 3),
   ("FRIDAY", 4), ("SATURDAY", 5), ("SUNDAY", 6)]

/-- The date operation selected by resolve_date_reference's string analysis. -/
inductive DOp where
  | yesterday | today | tomorrow | lastWeek | nextWeek
  | lastDay (k : ℤ) | thisDay (k : ℤ) | nextDay (k : ℤ)
  | asIs
deriving DecidableEq

/-- The day-name loop of resolve_date_reference: for each day in table order,
check LAST, then THIS, then NEXT substrings. -/
def dayLoop (u : List Char) : List (String × ℤ) → DOp
  | [] => .asIs
  | (nm, k) :: rest =>
    if containsSub ("LAST " ++ nm).data u || containsSub ("LAST_" ++ nm).data u then
      .lastDay k
    else if containsSub ("THIS " ++ nm).data u || containsSub ("THIS_" ++ nm).data u then
      .thisDay k
    else if containsSub ("NEXT " ++ nm).data u || containsSub ("NEXT_" ++ nm).data u then
      .nextDay k
    else dayLoop u rest

/-- The string analysis of resolve_date_reference (everything except the
date arithmetic): uppercase, strip, then the chain of comparisons. -/
def dateOp (s : String) : DOp :=
  let u := pyStrip (pyUpper s.data)
  if u = "YESTERDAY".data then .yesterday
  else if u = "TODAY".data then .today
  else if u = "TOMORROW".data then .tomorrow
  else if u = "LAST_WEEK".data || u = "LAST WEEK".data then .lastWeek
  else if u = "NEXT_WEEK".data || u = "NEXT WEEK".data then .nextWeek
  else dayLoop u dayPairs

/-- days_ago computation for LAST <day>: (weekday - day_num) % 7, or 7 if 0. -/
def lastDelta (o k : ℤ) : ℤ :=
  if (weekdayZ o - k) % 7 = 0 then 7 else (weekdayZ o - k) % 7

/-- days_until computation for THIS <day>: (day_num - weekday) % 7 (0 kept as 0). -/
def thisDelta (o k : ℤ) : ℤ := (k - weekdayZ o) % 7

/-- days_until computation for NEXT <day>: (day_num - weekday) % 7, 7 if 0 else +7. -/
def nextDelta (o k : ℤ) : ℤ :=
  if (k - weekdayZ o) % 7 = 0 then 7 else (k - weekdayZ o) % 7 + 7

/-- resolve_date_reference(date_str, current_date): current_date as ordinal. -/
def resolve_date_reference (s : String) (o : ℤ) : String :=
  match dateOp s with
  | .yesterday => fmtD (o - 1)
  | .today => fmtD o
  | .tomorrow => fmtD (o + 1)
  | .lastWeek => fmtD (o - 7)
  | .nextWeek => fmtD (o + 7)
  | .lastDay k => fmtD (o - lastDelta o k)
  | .thisDay k => fmtD (o + thisDelta o k)
  | .nextDay k => fmtD (o + nextDelta o k)
  | .asIs => s

/-! ## Model client retry policy (src/backend/lmstudio.py)

The HTTP interaction of one attempt is abstracted as an outcome; query_model
maps it exactly as the source's try/except does: success returns a payload,
timeouts are re-raised for retry handling, every other exception is caught
inside query_model and turned into a None return. -/

/-- Outcome of the HTTP call underlying one query_model attempt. -/
inductive HttpOutcome (α : Type) where
  | success (p : α)
  | timeoutErr
  | otherErr
deriving DecidableEq

/-- What a call to query_model does, as seen by its caller. -/
inductive QMRes (α : Type) where
  | returned (r : Option α)
  | raisedTimeout
  | raisedOther
deriving DecidableEq

/-- query_model: returns the payload on success, re-raises timeouts, and
catches any other exception returning None. -/
def query_model {α : Type} : HttpOutcome α → QMRes α
  | .success p => .returned (some p)
  | .timeoutErr => .raisedTimeout
  | .otherErr => .returned none

/-- The retry loop of query_model_with_retry: first argument is the retry
budget still allowed after the current attempt, second the current attempt
index. A returned value (success or None) ends the loop; a raised timeout
sleeps factor ^ attempt and retries while budget remains; any other raised
exception breaks the loop. Returns (result, sleep durations in order, number
of attempts made). -/
def retryAux {α : Type} (g : ℕ → QMRes α) (factor : ℚ) : ℕ → ℕ → Option α × List ℚ × ℕ
  | 0, i =>
    match g i with
    | .returned r => (r, [], 1)
    | .raisedOther => (none, [], 1)
    | .raisedTimeout => (none, [], 1)
  | b + 1, i =>
    match g i with
    | .returned r => (r, [], 1)
    | .raisedOther => (none, [], 1)
    | .raisedTimeout =>
      let rest := retryAux g factor b (i + 1)
      (rest.1, factor ^ i :: rest.2.1, rest.2.2 + 1)

/-- query_model_with_retry: up to max_retries + 1 attempts of query_model. -/
def query_model_with_retry {α : Type} (o : ℕ → HttpOutcome α) (max_retries : ℕ)
    (factor : ℚ) : Option α × List ℚ × ℕ :=
  retryAux (fun i => query_model (o i)) factor max_retries 0

/-- Number of leading raisedTimeout outcomes starting at attempt i,
looking at most k attempts ahead. -/
def leadingTimeouts {α : Type} (g : ℕ → QMRes α) : ℕ → ℕ → ℕ
  | _, 0 => 0
  | i, k + 1 =>
    match g i with
    | .raisedTimeout => 1 + leadingTimeouts g (i + 1) k
    | _ => 0

/-- The value a non-timeout query_model call hands back to the retry loop. -/
def resultAtQ {α : Type} : QMRes α → Option α
  | .returned r => r
  | .raisedOther => none
  | .raisedTimeout => none

/-! ## Message classification (src/backend/council.py, classify_message)

classify_message calls query_model_with_retry with a `temperature` keyword
argument; the keyword parameters accepted by query_model_with_retry's
definition are listed below, straight from its signature. -/

/-- Parameter names of query_model_with_retry (src/backend/lmstudio.py). -/
def acceptedKwargs : List String :=
  ["model", "messages", "timeout", "max_retries", "for_title", "for_evaluation"]

/-- Keyword arguments passed at classify_message's call site. -/
def classifyCallKwargs : List String := ["timeout", "max_retries", "temperature"]

/-- Result dict of classify_message (type and requires_tools fields). -/
structure ClassResult where
  type : String
  requires_tools : Bool
deriving DecidableEq

/-- Parsed classification JSON, as recovered by _extract_json_from_response. -/
structure ClassJson where
  type : String
  requires_tools : Bool
deriving DecidableEq

/-- Model response as classify_message sees it. -/
structure ClassifyResp where
  content : Option String
deriving DecidableEq

/-- Environment of one classify_message call: what the model call would
return, and what JSON extraction would recover from its content. -/
structure ClassifyOracle where
  queryResult : Option ClassifyResp
  extractJson : String → Option ClassJson

/-- Python str.strip on a String. -/
def pyStripS (s : String) : String := ⟨pyStrip s.data⟩

/-- classify_message: the try block first evaluates the call
query_model_with_retry(tool_model, messages, timeout=30.0, max_retries=1,
temperature=0.0); passing a keyword the callee does not accept raises
TypeError at the call, which the enclosing except handler turns into the
deliberation default. The remaining branches mirror the source's handling of
empty responses and JSON parse results. -/
def classify_message (_user_query : String) (o : ClassifyOracle) : ClassResult :=
  if classifyCallKwargs.any (fun k => !(acceptedKwargs.contains k)) then
    ClassResult.mk "deliberation" false
  else
    match o.queryResult with
    | none => ClassResult.mk "deliberation" false
    | some resp =>
      match resp.content with
      | none => ClassResult.mk "deliberation" false
      | some c =>
        if c = "" then ClassResult.mk "deliberation" false
        else
          match o.extractJson (pyStripS c) with
          | some j =>
            if j.type = "factual" || j.type = "chat" || j.type = "deliberation" then
              ClassResult.mk j.type j.requires_tools
            else
              ClassResult.mk "deliberation" j.requires_tools
          | none => ClassResult.mk "deliberation" false

/-! ## MCP registry busy tracking (src/backend/mcp/registry.py) -/

/-- Association-list lookup, first match (Python dicts keep keys unique). -/
def dictGet {β : Type} (m : List (String × β)) (k : String) : Option β :=
  match m.find? (fun p => p.1 = k) with
  | some p => some p.2
  | none => none

/-- Python dict assignment: update in place if the key exists, else append. -/
def dictSet {β : Type} (m : List (String × β)) (k : String) (v : β) : List (String × β) :=
  match m with
  | [] => [(k, v)]
  | p :: rest => if p.1 = k then (k, v) :: rest else p :: dictSet rest k v

/-- An MCPTool as the registry stores it. -/
structure ToolInfo where
  server_name : String
  name : String
deriving DecidableEq

/-- The mutable registry state touched by call_tool. -/
structure RegState where
  all_tools : List (String × ToolInfo)
  clients : List String
  tools_in_use : List (String × Bool)
  server_status : List (String × String)
deriving DecidableEq

/-- Outcome of the underlying client.call_tool awaited inside the try. -/
inductive ClientOutcome (ρ : Type) where
  | ok (r : ρ)
  | exc (e : String)
deriving DecidableEq

/-- The dict returned by MCPRegistry.call_tool. -/
inductive CallResult (ρ : Type) where
  | unknownTool (full_name : String)
  | serverNotRunning (server : String)
  | done (success : Bool) (server : String) (tool : String)
      (input : List (String × String)) (output : Option ρ) (error : Option String)
      (execution_time_seconds : ℚ)
deriving DecidableEq

/-- Marking the tool and its server busy at the start of call_tool. -/
def mark_busy (s : RegState) (full_name server : String) : RegState :=
  { s with tools_in_use := dictSet s.tools_in_use full_name true,
           server_status := dictSet s.server_status server "busy" }

/-- Full names of all tools registered for a server. -/
def serverToolNames (s : RegState) (server : String) : List String :=
  (s.all_tools.filter (fun p => p.2.server_name = server)).map (fun p => p.1)

/-- The finally block of call_tool: release the tool, then mark the server
busy iff any of its tools is still in use. -/
def finally_release (s : RegState) (full_name server : String) : RegState :=
  let tiu2 := dictSet s.tools_in_use full_name false
  let any_busy := (serverToolNames s server).any (fun n => (dictGet tiu2 n).getD false)
  { s with tools_in_use := tiu2,
           server_status := dictSet s.server_status server
             (if any_busy then "busy" else "available") }

/-- MCPRegistry.call_tool: unknown tools and missing clients return error
dicts untouched; otherwise the tool is marked busy, the client call's outcome
becomes a success or failure dict, and the finally block always releases. -/
def call_tool {ρ : Type} (s : RegState) (full_name : String)
    (args : List (String × String)) (outcome : ClientOutcome ρ) (t : ℚ) :
    CallResult ρ × RegState :=
  match dictGet s.all_tools full_name with
  | none => (.unknownTool full_name, s)
  | some tool =>
    if s.clients.contains tool.server_name = true then
      let s1 := mark_busy s full_name tool.server_name
      let res : CallResult ρ :=
        match outcome with
        | .ok r => .done true tool.server_name tool.name args (some r) none t
        | .exc e => .done false tool.server_name tool.name args none (some e) t
      (res, finally_release s1 full_name tool.server_name)
    else
      (.serverNotRunning tool.server_name, s)

/-- Whether a call_tool result dict reports success=true. -/
def callSuccess {ρ : Type} : CallResult ρ → Bool
  | .done success _ _ _ _ _ _ => success
  | _ => false

/-! ## Regex matchers for the Stage-2 ranking parsers (src/backend/council.py)

Each Python regex used by parse_ranking_from_text and extract_quality_ratings
is deterministic on its text (every quantified class is disjoint from what
follows it), so it is embedded as a prefix matcher returning the rest of the
text after the match. Scanning is left-to-right and non-overlapping, as
re.finditer and re.findall do. -/

/-- Case-sensitive literal prefix match, returning the rest. -/
def litM : List Char → List Char → Option (List Char)
  | [], t => some t
  | _ :: _, [] => none
  | p :: ps, c :: cs => if c = p then litM ps cs else none

/-- Case-insensitive character comparison (re.IGNORECASE on ASCII). -/
def lowerEq (a b : Char) : Bool := a.toLower = b.toLower

/-- Case-insensitive literal prefix match, returning the rest. -/
def litMCI : List Char → List Char → Option (List Char)
  | [], t => some t
  | _ :: _, [] => none
  | p :: ps, c :: cs => if lowerEq c p then litMCI ps cs else none

/-- Regex \s+: at least one whitespace character, consumed greedily. -/
def wsPlus : List Char → Option (List Char)
  | [] => none
  | c :: cs => if isWhite c then some (cs.dropWhile isWhite) else none

/-- The shared head of the rating regexes and the mention test:
Response (case-insensitive), \s+, one letter, uppercased as the source does. -/
def mentionAt (t : List Char) : Option (Char × List Char) :=
  match litMCI "Response".data t with
  | none => none
  | some t1 =>
    match wsPlus t1 with
    | none => none
    | some t2 =>
      match t2 with
      | [] => none
      | c :: cs => if isAlphaC c then some (c.toUpper, cs) else none

/-- Numeric value of an ASCII digit as a rational. -/
def digitVal (c : Char) : ℚ := ((c.toNat - 48 : ℕ) : ℚ)

/-- Regex \d(?:\.\d)?: a digit with an optional single decimal. -/
def ratingNum : List Char → Option (ℚ × List Char)
  | [] => none
  | d :: rest =>
    if isDigitC d then
      match rest with
      | p :: d2 :: rest2 =>
        if p = '.' ∧ isDigitC d2 then some (digitVal d + digitVal d2 / 10, rest2)
        else some (digitVal d, rest)
      | _ => some (digitVal d, rest)
    else none

/-- Regex \s*/\s*5: the rating denominator. -/
def fracTail (t : List Char) : Option (List Char) :=
  match litM "/".data (t.dropWhile isWhite) with
  | none => none
  | some t1 => litM "5".data (t1.dropWhile isWhite)

/-- Regex [:\(]: the separator of rating pattern 1. -/
def sepCP : List Char → Option (List Char)
  | [] => none
  | c :: cs => if c = ':' ∨ c = '(' then some cs else none

/-- Rating pattern 1 (re.IGNORECASE):
Response\s+([A-Z])\s*[:\(]\s*(\d(?:\.\d)?)\s*/\s*5. -/
def p1 (t : List Char) : Option ((Char × ℚ) × List Char) :=
  match mentionAt t with
  | none => none
  | some (L, t1) =>
    match sepCP (t1.dropWhile isWhite) with
    | none => none
    | some t2 =>
      match ratingNum (t2.dropWhile isWhite) with
      | none => none
      | some (q, t3) =>
        match fracTail t3 with
        | none => none
        | some t4 => some ((L, q), t4)

/-- Rating pattern 2 (re.IGNORECASE):
Response\s+([A-Z])\s*-\s*(\d(?:\.\d)?)\s*/\s*5. -/
def p2 (t : List Char) : Option ((Char × ℚ) × List Char) :=
  match mentionAt t with
  | none => none
  | some (L, t1) =>
    match litM "-".data (t1.dropWhile isWhite) with
    | none => none
    | some t2 =>
      match ratingNum (t2.dropWhile isWhite) with
      | none => none
      | some (q, t3) =>
        match fracTail t3 with
        | none => none
        | some t4 => some ((L, q), t4)

/-- The case-sensitive label regex of parse_ranking_from_text:
Response [A-Z] (one literal space). -/
def respLabelAt (t : List Char) : Option (Char × List Char) :=
  match litM "Response ".data t with
  | none => none
  | some t1 =>
    match t1 with
    | [] => none
    | c :: cs => if 65 ≤ c.toNat ∧ c.toNat ≤ 90 then some (c, cs) else none

/-- The numbered-item regex of parse_ranking_from_text:
\d+\.\s*Response [A-Z] (case-sensitive). -/
def numAt (t : List Char) : Option (Char × List Char) :=
  match t with
  | [] => none
  | c :: _ =>
    if isDigitC c then
      match litM ".".data (t.dropWhile isDigitC) with
      | none => none
      | some t2 => respLabelAt (t2.dropWhile isWhite)
    else none

/-- Left-to-right non-overlapping scan collecting all matches; the fuel is
always at least the remaining length, and every matcher consumes at least one
character, so a fuel of the text's length never runs out. -/
def scanA {α : Type} (m : List Char → Option (α × List Char)) : ℕ → List Char → List α
  | 0, _ => []
  | _ + 1, [] => []
  | f + 1, c :: cs =>
    match m (c :: cs) with
    | some (a, rest) => a :: scanA m f rest
    | none => scanA m f cs

/-- All matches of a matcher over a text (re.finditer / re.findall). -/
def scanL {α : Type} (m : List Char → Option (α × List Char)) (t : List Char) : List α :=
  scanA m t.length t

/-- Python-style text.split(sep)[1]: the segment between the first and second
occurrence of sep, available only when sep occurs. -/
def part1 (sep t : List Char) : Option (List Char) :=
  match findSub sep t with
  | none => none
  | some (_, post) =>
    match findSub sep post with
    | none => some post
    | some (a, _) => some a

/-- The section marker of Stage-2 ranking prompts. -/
def frSep : List Char := "FINAL RANKING:".data

/-- An anonymized label string, Response followed by one letter. -/
def mkLabelStr (c : Char) : String := String.push "Response " c

/-- parse_ranking_from_text: inside the FINAL RANKING section prefer numbered
items, else any Response-letter occurrences; without the section, scan the
whole text. -/
def parse_ranking_from_text (s : String) : List String :=
  match part1 frSep s.data with
  | some seg =>
    let nums := scanL numAt seg
    if nums.isEmpty then (scanL respLabelAt seg).map mkLabelStr
    else nums.map mkLabelStr
  | none => (scanL respLabelAt s.data).map mkLabelStr

/-- min(5, max(1, rating)) as the source clamps extracted ratings. -/
def clampQ (q : ℚ) : ℚ := min 5 (max 1 q)

/-- Recording one pattern-1 match: unconditional dict assignment. -/
def eqrStep1 (acc : List (String × ℚ)) (lq : Char × ℚ) : List (String × ℚ) :=
  dictSet acc (mkLabelStr lq.1) (clampQ lq.2)

/-- Recording one pattern-2 match: assignment only when the label is new. -/
def eqrStep2 (acc : List (String × ℚ)) (lq : Char × ℚ) : List (String × ℚ) :=
  match dictGet acc (mkLabelStr lq.1) with
  | some _ => acc
  | none => dictSet acc (mkLabelStr lq.1) (clampQ lq.2)

/-- Recording one positional rating: max(1, 5 - index). -/
def posStep (acc : List (String × ℚ)) (il : ℕ × String) : List (String × ℚ) :=
  dictSet acc il.2 (max 1 (5 - (il.1 : ℚ)))

/-- extract_quality_ratings: pattern-1 matches overwrite, pattern-2 matches
only fill missing labels, and if neither pattern matched at all, ratings are
derived positionally from the parsed ranking (1st = 5, 2nd = 4, floored at 1,
later duplicates overriding). -/
def extract_quality_ratings (s : String) : List (String × ℚ) :=
  let m1 := scanL p1 s.data
  let m2 := scanL p2 s.data
  let r2 := m2.foldl eqrStep2 (m1.foldl eqrStep1 [])
  if r2.isEmpty then ((parse_ranking_from_text s).enum).foldl posStep []
  else r2

/-! ## Stage-2 labels and aggregate rankings (src/backend/council.py) -/

/-- One stage-1 result entry. -/
structure Stage1Entry where
  model : String
  response : String
deriving DecidableEq

/-- The labels Response A, Response B, ... assigned in stage-1 order. -/
def mkLabels (n : ℕ) : List String :=
  (List.range n).map (fun i => mkLabelStr (Char.ofNat (65 + i)))

/-- The label-to-model mapping built by stage2_collect_rankings_streaming. -/
def label_to_model (stage1 : List Stage1Entry) : List (String × String) :=
  (mkLabels stage1.length).zip (stage1.map (fun e => e.model))

/-- Composing the label-to-model mapping with a parsed label list; labels
outside the mapping are dropped, as calculate_aggregate_rankings does. -/
def composeRanking (ltm : List (String × String)) (labels : List String) : List String :=
  labels.filterMap (fun l => dictGet ltm l)

/-- One stage-2 ranking result, as consumed by calculate_aggregate_rankings. -/
structure RankEntry where
  model : String
  ranking : String
deriving DecidableEq

/-- defaultdict(list) append: extend the entry in place or create it. -/
def dictAppend (m : List (String × List ℕ)) (k : String) (v : ℕ) : List (String × List ℕ) :=
  match m with
  | [] => [(k, [v])]
  | p :: rest => if p.1 = k then (p.1, p.2 ++ [v]) :: rest else p :: dictAppend rest k v

/-- Processing one (position, label) pair of a parsed ranking: labels outside
the mapping are skipped, known labels append their 1-based position to the
owning model. -/
def innerStep (ltm : List (String × String)) (acc : List (String × List ℕ))
    (il : ℕ × String) : List (String × List ℕ) :=
  match dictGet ltm il.2 with
  | some m => dictAppend acc m (il.1 + 1)
  | none => acc

/-- Processing one ranking entry of calculate_aggregate_rankings. -/
def outerStep (ltm : List (String × String)) (acc : List (String × List ℕ))
    (r : RankEntry) : List (String × List ℕ) :=
  ((parse_ranking_from_text r.ranking).enum).foldl (innerStep ltm) acc

/-- model_positions: for each ranking in order, parse it and append each
recognized label's position (1-based) to that model's list. -/
def modelPositions (stage2 : List RankEntry) (ltm : List (String × String)) :
    List (String × List ℕ) :=
  stage2.foldl (outerStep ltm) []

/-- Proof abstraction: the multiset of positions recorded for one model. -/
def posM (mp : List (String × List ℕ)) (m : String) : Multiset ℕ :=
  match dictGet mp m with
  | some l => (l : Multiset ℕ)
  | none => 0

/-- Proof abstraction: the positions one parsed ranking contributes to one
model. -/
def contribL (l : List (ℕ × String)) (ltm : List (String × String)) (m : String) :
    Multiset ℕ :=
  ((l.filterMap (fun il =>
    match dictGet ltm il.2 with
    | some m' => if m' = m then some (il.1 + 1) else none
    | none => none)) : Multiset ℕ)

/-- Floor of a rational, computed on the normalized fraction. -/
def ratFloor (x : ℚ) : ℤ := Int.fdiv x.num (x.den : ℤ)

/-- Round half to even (Python round) of a rational. -/
def roundHalfEven (x : ℚ) : ℤ :=
  if x - (ratFloor x : ℚ) < 1 / 2 then ratFloor x
  else if 1 / 2 < x - (ratFloor x : ℚ) then ratFloor x + 1
  else if ratFloor x % 2 = 0 then ratFloor x else ratFloor x + 1

/-- Python round(x, 2). -/
def roundTo2 (x : ℚ) : ℚ := (roundHalfEven (100 * x) : ℚ) / 100

/-- One aggregate-ranking entry. -/
structure AggEntry where
  model : String
  average_rank : ℚ
  rankings_count : ℕ
deriving DecidableEq

/-- Sorting key order of the aggregate list: by average rank. -/
def aggLE (a b : AggEntry) : Prop := a.average_rank ≤ b.average_rank

instance : DecidableRel aggLE := fun a b =>
  inferInstanceAs (Decidable (a.average_rank ≤ b.average_rank))

instance : IsTotal AggEntry aggLE := ⟨fun a b => le_total a.average_rank b.average_rank⟩

instance : IsTrans AggEntry aggLE := ⟨fun _ _ _ => le_trans⟩

/-- The unsorted aggregate list: one entry per model with recorded positions
(the positions list of a created entry is never empty). -/
def aggEntries (mp : List (String × List ℕ)) : List AggEntry :=
  mp.filterMap (fun p =>
    if p.2.isEmpty then none
    else some (AggEntry.mk p.1 (roundTo2 ((p.2.sum : ℚ) / (p.2.length : ℚ))) p.2.length))

/-- Proof abstraction: the aggregate entry a model receives, read off the
position multiset. -/
def entryOfPos (mp : List (String × List ℕ)) (m : String) : AggEntry :=
  AggEntry.mk m
    (roundTo2 (((posM mp m).sum : ℚ) / ((Multiset.card (posM mp m)) : ℚ)))
    (Multiset.card (posM mp m))

/-- calculate_aggregate_rankings: average each model's positions over all
rankings that mention its label, then sort ascending (Python's stable sort,
matched by insertion sort with a non-strict comparison). -/
def calculate_aggregate_rankings (stage2 : List RankEntry)
    (ltm : List (String × String)) : List AggEntry :=
  List.insertionSort aggLE (aggEntries (modelPositions stage2 ltm))

/-! ## Fake-image stripping (src/backend/council.py, strip_fake_images) -/

/-- Split a list at the first occurrence of a character. -/
def splitAtChar (ch : Char) : List Char → Option (List Char × List Char)
  | [] => none
  | c :: cs => if c = ch then some ([], cs) else
      (splitAtChar ch cs).map (fun p => (c :: p.1, p.2))

/-- The shared shape of all five image regexes: literal ![, an alt text up to
the first ], a literal (, and a URL up to the first ). Returns the URL region
and the rest after the closing parenthesis. -/
def imgCore (t : List Char) : Option (List Char × List Char) :=
  match litM "![".data t with
  | none => none
  | some t1 =>
    match splitAtChar ']' t1 with
    | none => none
    | some (_, t2) =>
      match t2 with
      | '(' :: t3 =>
        match splitAtChar ')' t3 with
        | none => none
        | some (url, rest) => some (url, rest)
      | _ => none

/-- Regex https?:// (case-insensitive), returning the rest of the URL. -/
def protoAt (u : List Char) : Option (List Char) :=
  match litMCI "http".data u with
  | none => none
  | some [] => none
  | some (c :: cs) =>
    if lowerEq c 's' then litMCI "://".data cs else litMCI "://".data (c :: cs)

/-- Case-insensitive prefix test. -/
def hasPrefixCI (p t : List Char) : Bool := (litMCI p t).isSome

/-- Case-insensitive substring test. -/
def containsSubCI (p : List Char) : List Char → Bool
  | [] => hasPrefixCI p []
  | c :: cs => hasPrefixCI p (c :: cs) || containsSubCI p cs

/-- URL test of placeholder pattern 1: https?://via\.placeholder\.com. -/
def urlMatches1 (url : List Char) : Bool :=
  match protoAt url with
  | some rest => hasPrefixCI "via.placeholder.com".data rest
  | none => false

/-- URL test of placeholder pattern 2: https?://placeholder\. . -/
def urlMatches2 (url : List Char) : Bool :=
  match protoAt url with
  | some rest => hasPrefixCI "placeholder.".data rest
  | none => false

/-- URL test of placeholder pattern 3: https?://example\.com. -/
def urlMatches3 (url : List Char) : Bool :=
  match protoAt url with
  | some rest => hasPrefixCI "example.com".data rest
  | none => false

/-- URL test of placeholder pattern 4: https?://[^\)]*\?text=. -/
def urlMatches4 (url : List Char) : Bool :=
  match protoAt url with
  | some rest => containsSubCI "?text=".data rest
  | none => false

/-- URL test of placeholder pattern 5: https?://[^\)]+/placeholder
(at least one character between the authority slashes and /placeholder). -/
def urlMatches5 (url : List Char) : Bool :=
  match protoAt url with
  | some [] => false
  | some (_ :: rs) => containsSubCI "/placeholder".data rs
  | none => false

/-- A full match of one image pattern at the head of the text. -/
def imgMatch (pred : List Char → Bool) (t : List Char) : Option (List Char) :=
  match imgCore t with
  | some (url, rest) => if pred url then some rest else none
  | none => none

/-- re.sub of one image pattern with the empty string: remove non-overlapping
left-to-right matches. Every match consumes at least one character, so fuel
equal to the text's length never runs out. -/
def subAllA (pred : List Char → Bool) : ℕ → List Char → List Char
  | 0, t => t
  | _ + 1, [] => []
  | f + 1, c :: cs =>
    match imgMatch pred (c :: cs) with
    | some rest => subAllA pred f rest
    | none => c :: subAllA pred f cs

/-- Remove all matches of one image pattern from a text. -/
def subAll (pred : List Char → Bool) (t : List Char) : List Char :=
  subAllA pred t.length t

/-- Number of leading newlines. -/
def countNL : List Char → ℕ
  | [] => 0
  | c :: cs => if c = '\n' then 1 + countNL cs else 0

/-- re.sub of \n{3,} with two newlines: collapse every run of three or more
newlines. -/
def collapseA : ℕ → List Char → List Char
  | 0, t => t
  | _ + 1, [] => []
  | f + 1, c :: cs =>
    if c = '\n' ∧ 2 ≤ countNL cs then
      '\n' :: '\n' :: collapseA f (cs.drop (countNL cs))
    else c :: collapseA f cs

/-- Collapse all long newline runs of a text. -/
def collapse (t : List Char) : List Char := collapseA t.length t

/-- Whether a text contains three consecutive newlines, i.e. a match of the
\n{3,} pattern that collapse rewrites. -/
def hasTriple : List Char → Bool
  | [] => false
  | c :: cs => (c = '\n' && decide (2 ≤ countNL cs)) || hasTriple cs

/-- strip_fake_images: remove the five placeholder image patterns in order,
collapse blank lines, and strip surrounding whitespace. -/
def strip_fake_images (s : String) : String :=
  ⟨pyStrip (collapse (subAll urlMatches5 (subAll urlMatches4 (subAll urlMatches3
    (subAll urlMatches2 (subAll urlMatches1 s.data))))))⟩

/-- Whether any of the five placeholder image patterns matches anywhere. -/
def hasAnyImgMatch (t : List Char) : Bool :=
  t.tails.any (fun s =>
    (imgMatch urlMatches1 s).isSome || (imgMatch urlMatches2 s).isSome ||
    (imgMatch urlMatches3 s).isSome || (imgMatch urlMatches4 s).isSome ||
    (imgMatch urlMatches5 s).isSome)

/-! ## run_full_council (src/backend/council.py) -/

/-- The stage-3 synthesis result dict. -/
structure Stage3Result where
  model : String
  response : String
deriving DecidableEq

/-- The stage-2 slot of run_full_council's return value: a flat result list in
the single-round branch, a list of rounds in the multi-round branch (the
early-return empty literal is the flat empty list). -/
inductive Stage2Field where
  | flat (r : List RankEntry)
  | rounds (r : List (List RankEntry))
deriving DecidableEq

/-- The metadata dict of run_full_council by branch. -/
inductive CouncilMeta where
  | empty
  | single (ltm : List (String × String)) (agg : List AggEntry)
  | multi (rounds_completed rounds_requested : ℕ)
      (ltm : List (String × String)) (agg : List AggEntry)
deriving DecidableEq

/-- The collaborators run_full_council awaits: the stage-1 gathering outcome,
the configured rounds, and the stage-2/stage-3 sub-pipelines. -/
structure CouncilOracle where
  stage1 : List Stage1Entry
  rounds : ℕ
  stage2_multi : List Stage1Entry → List (List RankEntry) × List (String × String)
  stage2_single : List Stage1Entry → List RankEntry × List (String × String)
  stage3_multi : List Stage1Entry → List (List RankEntry) → Stage3Result
  stage3_single : List Stage1Entry → List RankEntry → Stage3Result

/-- run_full_council, with a log of the stages actually run: an empty stage-1
result returns the canonical failure immediately; otherwise the configured
rounds select the multi-round or single-round pipeline. -/
def run_full_council (o : CouncilOracle) :
    (List Stage1Entry × Stage2Field × Stage3Result × CouncilMeta) × List String :=
  if o.stage1.isEmpty then
    ((o.stage1, .flat [],
      Stage3Result.mk "error" "All models failed to respond. Please try again.",
      .empty), ["stage1"])
  else if 1 < o.rounds then
    let p := o.stage2_multi o.stage1
    let finalRound := p.1.getLast?.getD []
    let agg := calculate_aggregate_rankings finalRound p.2
    let s3 := o.stage3_multi o.stage1 p.1
    ((o.stage1, .rounds p.1, s3, .multi p.1.length o.rounds p.2 agg),
     ["stage1", "stage2", "stage3"])
  else
    let p := o.stage2_single o.stage1
    let agg := calculate_aggregate_rankings p.1 p.2
    let s3 := o.stage3_single o.stage1 p.1
    ((o.stage1, .flat p.1, s3, .single p.2 agg), ["stage1", "stage2", "stage3"])

end Council

namespace Council

/-! ## Sanity checks for the date embedding -/

theorem fmtD_epoch : fmtD 719163 = "1970-01-01" := by decide

theorem fmtD_sample : fmtD 739100 = "2024-08-02" := by decide

theorem weekdayZ_epoch : weekdayZ 719163 = 3 := by decide

/-- dateOp recognizes every "THIS <day>" string. -/
theorem dateOp_this : ∀ p ∈ dayPairs, dateOp ("THIS " ++ p.1) = DOp.thisDay p.2 := by
  decide

/-- dateOp recognizes every "LAST <day>" string. -/
theorem dateOp_last : ∀ p ∈ dayPairs, dateOp ("LAST " ++ p.1) = DOp.lastDay p.2 := by
  decide

/-- dateOp recognizes "YESTERDAY". -/
theorem dateOp_yesterday : dateOp "YESTERDAY" = DOp.yesterday := by decide

/-- Claim C3: For every current date D and every day name X,
resolve_date_reference("THIS X", D) returns the occurrence of weekday X in the
current week of D (the seven days D..D+6, today included), and returns D itself
when D's weekday is X. -/
theorem C3_this_day (p : String × ℤ) (hp : p ∈ dayPairs) (D : ℤ)
    (hlo : 1 ≤ D) (hhi : D + 6 ≤ 3652059) :
    resolve_date_reference ("THIS " ++ p.1) D = fmtD (D + thisDelta D p.2) ∧
    weekdayZ (D + thisDelta D p.2) = p.2 ∧
    D ≤ D + thisDelta D p.2 ∧
    D + thisDelta D p.2 ≤ D + 6 ∧
    (weekdayZ D = p.2 → D + thisDelta D p.2 = D) ∧
    (∀ F : ℤ, D ≤ F → F ≤ D + 6 → weekdayZ F = p.2 → F = D + thisDelta D p.2) := by
  have hop : dateOp ("THIS " ++ p.1) = DOp.thisDay p.2 := dateOp_this p hp
  have hk : 0 ≤ p.2 ∧ p.2 ≤ 6 := by
    fin_cases hp <;> decide
  obtain ⟨hk1, hk2⟩ := hk
  constructor
  · simp [resolve_date_reference, hop]
  refine ⟨?_, ?_, ?_, ?_, ?_⟩
  · unfold weekdayZ thisDelta weekdayZ
    omega
  · unfold thisDelta weekdayZ
    omega
  · unfold thisDelta weekdayZ
    omega
  · unfold thisDelta weekdayZ
    omega
  · intro F h1 h2 h3
    unfold thisDelta weekdayZ
    unfold weekdayZ at h3
    omega

/-- Witness for C3 at day MONDAY and 2024-08-02 (ordinal 739100). -/
theorem C3_this_day_witness :
    (("MONDAY", (0 : ℤ)) ∈ dayPairs) ∧
    (resolve_date_reference "THIS MONDAY" 739100 = fmtD (739100 + thisDelta 739100 0) ∧
     weekdayZ (739100 + thisDelta 739100 0) = 0 ∧
     739100 ≤ 739100 + thisDelta 739100 0 ∧
     739100 + thisDelta 739100 0 ≤ 739100 + 6 ∧
     (weekdayZ 739100 = 0 → 739100 + thisDelta 739100 0 = 739100) ∧
     (∀ F : ℤ, 739100 ≤ F → F ≤ 739100 + 6 → weekdayZ F = 0 →
        F = 739100 + thisDelta 739100 0)) :=
  ⟨by decide, C3_this_day ("MONDAY", 0) (by decide) 739100 (by decide) (by decide)⟩

/-- Claim C4: resolve_date_reference("YESTERDAY", D) is D minus one day, and
resolve_date_reference("LAST X", D) is the greatest date at most D minus one day
whose weekday is X; when D's weekday is X this is D minus 7 days. -/
theorem C4_yesterday_last (p : String × ℤ) (hp : p ∈ dayPairs) (D : ℤ)
    (hlo : 8 ≤ D) (hhi : D ≤ 3652059) :
    resolve_date_reference "YESTERDAY" D = fmtD (D - 1) ∧
    resolve_date_reference ("LAST " ++ p.1) D = fmtD (D - lastDelta D p.2) ∧
    weekdayZ (D - lastDelta D p.2) = p.2 ∧
    D - lastDelta D p.2 ≤ D - 1 ∧
    (∀ F : ℤ, F ≤ D - 1 → weekdayZ F = p.2 → F ≤ D - lastDelta D p.2) ∧
    (weekdayZ D = p.2 → D - lastDelta D p.2 = D - 7) := by
  have hop : dateOp ("LAST " ++ p.1) = DOp.lastDay p.2 := dateOp_last p hp
  have hk : 0 ≤ p.2 ∧ p.2 ≤ 6 := by
    fin_cases hp <;> decide
  obtain ⟨hk1, hk2⟩ := hk
  refine ⟨?_, ?_, ?_, ?_, ?_, ?_⟩
  · simp [resolve_date_reference, dateOp_yesterday]
  · simp [resolve_date_reference, hop]
  · unfold lastDelta weekdayZ
    split <;> omega
  · unfold lastDelta weekdayZ
    split <;> omega
  · intro F h1 h2
    unfold lastDelta weekdayZ
    unfold weekdayZ at h2
    split <;> omega
  · intro h
    unfold lastDelta weekdayZ
    unfold weekdayZ at h
    split <;> omega

/-- Witness for C4 at day FRIDAY and 2024-08-02 (ordinal 739100, a Friday). -/
theorem C4_yesterday_last_witness :
    (("FRIDAY", (4 : ℤ)) ∈ dayPairs) ∧
    (resolve_date_reference "YESTERDAY" 739100 = fmtD (739100 - 1) ∧
     resolve_date_reference "LAST FRIDAY" 739100 = fmtD (739100 - lastDelta 739100 4) ∧
     weekdayZ (739100 - lastDelta 739100 4) = 4 ∧
     739100 - lastDelta 739100 4 ≤ 739100 - 1 ∧
     (∀ F : ℤ, F ≤ 739100 - 1 → weekdayZ F = 4 → F ≤ 739100 - lastDelta 739100 4) ∧
     (weekdayZ 739100 = 4 → 739100 - lastDelta 739100 4 = 739100 - 7)) :=
  ⟨by decide, C4_yesterday_last ("FRIDAY", 4) (by decide) 739100 (by decide) (by decide)⟩

/-! ## Retry policy theorems -/

/-- One-step unfolding of leadingTimeouts. -/
theorem leadingTimeouts_succ {α : Type} (g : ℕ → QMRes α) (i k : ℕ) :
    leadingTimeouts g i (k + 1) =
      (match g i with
       | QMRes.raisedTimeout => 1 + leadingTimeouts g (i + 1) k
       | _ => 0) := rfl

/-- Closed form of the retry loop in terms of the leading run of timeouts. -/
theorem retryAux_eq {α : Type} (g : ℕ → QMRes α) (factor : ℚ) :
    ∀ b i, retryAux g factor b i =
      (if leadingTimeouts g i (b + 1) = b + 1 then none
         else resultAtQ (g (i + leadingTimeouts g i (b + 1))),
       (List.range (min (leadingTimeouts g i (b + 1)) b)).map (fun j => factor ^ (i + j)),
       min (leadingTimeouts g i (b + 1) + 1) (b + 1)) := by
  intro b
  induction b with
  | zero =>
    intro i
    cases hg : g i with
    | returned r =>
      have hL : leadingTimeouts g i 1 = 0 := by rw [leadingTimeouts_succ, hg]
      simp [retryAux, hg, hL, resultAtQ]
    | raisedOther =>
      have hL : leadingTimeouts g i 1 = 0 := by rw [leadingTimeouts_succ, hg]
      simp [retryAux, hg, hL, resultAtQ]
    | raisedTimeout =>
      have hL : leadingTimeouts g i 1 = 1 := by
        rw [leadingTimeouts_succ, hg]
        rfl
      simp [retryAux, hg, hL]
  | succ b ih =>
    intro i
    cases hg : g i with
    | returned r =>
      have hL : leadingTimeouts g i (b + 1 + 1) = 0 := by rw [leadingTimeouts_succ, hg]
      simp [retryAux, hg, hL, resultAtQ]
    | raisedOther =>
      have hL : leadingTimeouts g i (b + 1 + 1) = 0 := by rw [leadingTimeouts_succ, hg]
      simp [retryAux, hg, hL, resultAtQ]
    | raisedTimeout =>
      have hL : leadingTimeouts g i (b + 1 + 1) = 1 + leadingTimeouts g (i + 1) (b + 1) := by
        rw [leadingTimeouts_succ, hg]
      simp only [retryAux, hg, ih (i + 1), hL]
      set n := leadingTimeouts g (i + 1) (b + 1) with hn
      simp only [Prod.mk.injEq]
      refine ⟨?_, ?_, ?_⟩
      · have h2 : i + (1 + n) = i + 1 + n := by omega
        by_cases h : n = b + 1
        · rw [h, show 1 + (b + 1) = b + 1 + 1 from by omega]
          simp
        · have h3 : ¬(1 + n = b + 1 + 1) := by omega
          simp [h, h3, h2]
      · have hmin : min (1 + n) (b + 1) = min n b + 1 := by omega
        rw [hmin, List.range_succ_eq_map, List.map_cons, List.map_map]
        refine congrArg₂ _ (by simp) ?_
        refine List.map_congr_left ?_
        intro j _
        simp only [Function.comp_apply]
        refine congrArg _ (by omega)
      · omega

/-- Claim C8: query_model_with_retry retries exactly on timeout or connect
errors: with L the number of leading timeout attempts, it makes
min(L + 1, max_retries + 1) attempts, sleeping factor ^ attempt after every
attempt but the last (attempt starting at 0); after a non-timeout failure
(HTTP error, JSON failure, or any other exception, all of which query_model
converts to a None return) it makes no further attempts and returns nil, as
it does when all max_retries + 1 attempts time out. -/
theorem C8_query_model_with_retry {α : Type} (o : ℕ → HttpOutcome α)
    (max_retries : ℕ) (factor : ℚ) :
    (query_model_with_retry o max_retries factor =
      (if leadingTimeouts (fun i => query_model (o i)) 0 (max_retries + 1) = max_retries + 1
         then none
         else resultAtQ (query_model
           (o (leadingTimeouts (fun i => query_model (o i)) 0 (max_retries + 1)))),
       (List.range (min (leadingTimeouts (fun i => query_model (o i)) 0 (max_retries + 1))
          max_retries)).map (fun j => factor ^ j),
       min (leadingTimeouts (fun i => query_model (o i)) 0 (max_retries + 1) + 1)
         (max_retries + 1))) ∧
    (∀ p, o 0 = .success p → query_model_with_retry o max_retries factor = (some p, [], 1)) ∧
    (o 0 = .otherErr → query_model_with_retry o max_retries factor = (none, [], 1)) := by
  have hm := retryAux_eq (fun i => query_model (o i)) factor max_retries 0
  refine ⟨?_, ?_, ?_⟩
  · rw [query_model_with_retry, hm]
    simp
  · intro p hp
    rw [query_model_with_retry]
    cases max_retries with
    | zero => simp [retryAux, hp, query_model]
    | succ b => simp [retryAux, hp, query_model]
  · intro hp
    rw [query_model_with_retry]
    cases max_retries with
    | zero => simp [retryAux, hp, query_model]
    | succ b => simp [retryAux, hp, query_model]

/-! ## Classification theorem -/

/-- Claim C10: classify_message always returns the fallback classification
(type "deliberation", requires_tools false) and never "factual" or "chat":
its call to query_model_with_retry passes the keyword temperature, which the
callee's signature does not accept, so a TypeError is raised before any model
is contacted and the except handler returns the deliberation default; the
result is independent of what the model would have answered. -/
theorem C10_classify_message (q : String) (o o' : ClassifyOracle) :
    classify_message q o = ClassResult.mk "deliberation" false ∧
    (classify_message q o).type ≠ "factual" ∧
    (classify_message q o).type ≠ "chat" ∧
    classify_message q o = classify_message q o' ∧
    "temperature" ∈ classifyCallKwargs ∧ "temperature" ∉ acceptedKwargs := by
  have key : ∀ oo : ClassifyOracle,
      classify_message q oo = ClassResult.mk "deliberation" false := by
    intro oo
    unfold classify_message
    rw [if_pos (show (classifyCallKwargs.any fun k => !(acceptedKwargs.contains k)) = true
      by decide)]
  refine ⟨key o, ?_, ?_, ?_, by decide, by decide⟩
  · rw [key o]
    decide
  · rw [key o]
    decide
  · rw [key o, key o']

/-! ## Registry dict lemmas and the call_tool theorem -/

theorem dictGet_nil {β : Type} (k : String) : dictGet ([] : List (String × β)) k = none :=
  rfl

theorem dictGet_cons {β : Type} (a : String × β) (m : List (String × β)) (k : String) :
    dictGet (a :: m) k = if a.1 = k then some a.2 else dictGet m k := by
  by_cases h : a.1 = k <;> simp [dictGet, List.find?, h]

theorem dictGet_dictSet_self {β : Type} (m : List (String × β)) (k : String) (v : β) :
    dictGet (dictSet m k v) k = some v := by
  induction m with
  | nil => simp [dictSet, dictGet_cons]
  | cons p rest ih =>
    by_cases h : p.1 = k
    · simp [dictSet, h, dictGet_cons]
    · simp [dictSet, h, dictGet_cons, ih]

theorem dictGet_dictSet_ne {β : Type} (m : List (String × β)) (k k' : String) (v : β)
    (h : k' ≠ k) : dictGet (dictSet m k v) k' = dictGet m k' := by
  have h2 : k ≠ k' := Ne.symm h
  induction m with
  | nil => simp [dictSet, dictGet_cons, h2, dictGet_nil]
  | cons p rest ih =>
    by_cases hp : p.1 = k
    · rw [dictSet, if_pos hp, dictGet_cons, dictGet_cons]
      simp only [hp]
      simp [h2]
    · rw [dictSet, if_neg hp, dictGet_cons, dictGet_cons, ih]

theorem dictSet_dictSet {β : Type} (m : List (String × β)) (k : String) (v w : β) :
    dictSet (dictSet m k v) k w = dictSet m k w := by
  induction m with
  | nil => simp [dictSet]
  | cons p rest ih =>
    by_cases h : p.1 = k
    · simp [dictSet, h]
    · simp [dictSet, h, ih]

theorem dictSet_eq_of_get {β : Type} (m : List (String × β)) (k : String) (v : β)
    (h : dictGet m k = some v) : dictSet m k v = m := by
  induction m with
  | nil => simp [dictGet_nil] at h
  | cons p rest ih =>
    by_cases hp : p.1 = k
    · rw [dictGet_cons, if_pos hp] at h
      have hv : p.2 = v := Option.some.inj h
      cases p with
      | mk a b =>
        simp only at hp hv
        simp [dictSet, hp, ← hv]
    · rw [dictGet_cons, if_neg hp] at h
      simp [dictSet, hp, ih h]

theorem dictGet_mem {β : Type} (m : List (String × β)) (k : String) (v : β)
    (h : dictGet m k = some v) : (k, v) ∈ m := by
  induction m with
  | nil => simp [dictGet_nil] at h
  | cons p rest ih =>
    by_cases hp : p.1 = k
    · rw [dictGet_cons, if_pos hp] at h
      have hv : p.2 = v := Option.some.inj h
      cases p with
      | mk a b =>
        simp only at hp hv
        simp [hp, hv]
    · rw [dictGet_cons, if_neg hp] at h
      exact List.mem_cons_of_mem _ (ih h)

/-- Claim C6: for a registered tool of a running server whose in_use flag is
clear, call_tool marks the tool in use and its server busy for the duration
of the call, and on every exit path (client success or raised exception) the
finally block restores tools_in_use to its state before the call; the
returned dict has success=true iff the client call succeeded, and after the
call the server's status is "busy" iff one of its tools is still in use. -/
theorem C6_call_tool {ρ : Type} (s : RegState) (full_name : String) (tool : ToolInfo)
    (args : List (String × String)) (outcome : ClientOutcome ρ) (t : ℚ)
    (hreg : dictGet s.all_tools full_name = some tool)
    (hcli : s.clients.contains tool.server_name = true)
    (hfree : dictGet s.tools_in_use full_name = some false) :
    ((call_tool s full_name args outcome t).2.tools_in_use = s.tools_in_use) ∧
    (dictGet (mark_busy s full_name tool.server_name).tools_in_use full_name = some true) ∧
    (dictGet (mark_busy s full_name tool.server_name).server_status tool.server_name
       = some "busy") ∧
    (∃ n ∈ serverToolNames s tool.server_name,
       dictGet (mark_busy s full_name tool.server_name).tools_in_use n = some true) ∧
    (callSuccess (call_tool s full_name args outcome t).1 = true ↔ ∃ r, outcome = .ok r) ∧
    ((dictGet (call_tool s full_name args outcome t).2.server_status tool.server_name
        = some "busy") ↔
      ∃ n ∈ serverToolNames s tool.server_name,
        dictGet (call_tool s full_name args outcome t).2.tools_in_use n = some true) := by
  have hstep : call_tool s full_name args outcome t =
      (match outcome with
        | .ok r => .done true tool.server_name tool.name args (some r) none t
        | .exc e => .done false tool.server_name tool.name args none (some e) t,
       finally_release (mark_busy s full_name tool.server_name) full_name
         tool.server_name) := by
    unfold call_tool
    simp only [hreg]
    rw [if_pos hcli]
  have htiu2 : dictSet (mark_busy s full_name tool.server_name).tools_in_use
      full_name false = s.tools_in_use := by
    simp only [mark_busy]
    rw [dictSet_dictSet]
    exact dictSet_eq_of_get _ _ _ hfree
  have htiu : (finally_release (mark_busy s full_name tool.server_name) full_name
      tool.server_name).tools_in_use = s.tools_in_use := by
    simp only [finally_release]
    exact htiu2
  have hmem : full_name ∈ serverToolNames s tool.server_name := by
    simp only [serverToolNames, List.mem_map, List.mem_filter]
    exact ⟨(full_name, tool), ⟨dictGet_mem _ _ _ hreg, by simp⟩, rfl⟩
  have hstn : serverToolNames (mark_busy s full_name tool.server_name) tool.server_name
      = serverToolNames s tool.server_name := rfl
  have hgetd : ∀ ob : Option Bool, (ob.getD false = true) ↔ ob = some true := by
    intro ob
    cases ob <;> simp
  refine ⟨?_, ?_, ?_, ?_, ?_, ?_⟩
  · rw [hstep]
    exact htiu
  · simp only [mark_busy]
    exact dictGet_dictSet_self _ _ _
  · simp only [mark_busy]
    exact dictGet_dictSet_self _ _ _
  · exact ⟨full_name, hmem, by simp only [mark_busy]; exact dictGet_dictSet_self _ _ _⟩
  · rw [hstep]
    cases outcome with
    | ok r => simp [callSuccess]
    | exc e => simp [callSuccess]
  · rw [hstep]
    have htiu3 : dictSet (dictSet s.tools_in_use full_name true) full_name false
        = s.tools_in_use := by
      rw [dictSet_dictSet]
      exact dictSet_eq_of_get _ _ _ hfree
    have hstn2 : serverToolNames (RegState.mk s.all_tools s.clients
        (dictSet s.tools_in_use full_name true)
        (dictSet s.server_status tool.server_name "busy")) tool.server_name
        = serverToolNames s tool.server_name := rfl
    simp only [finally_release, mark_busy, htiu3, hstn2]
    rw [dictSet_dictSet, dictGet_dictSet_self]
    have hb : ((serverToolNames s tool.server_name).any
        (fun n => (dictGet s.tools_in_use n).getD false) = true) ↔
        ∃ n ∈ serverToolNames s tool.server_name,
          dictGet s.tools_in_use n = some true := by
      rw [List.any_eq_true]
      exact exists_congr fun n => and_congr_right fun _ => hgetd _
    by_cases hc : (serverToolNames s tool.server_name).any
        (fun n => (dictGet s.tools_in_use n).getD false) = true
    · rw [if_pos hc]
      simp only [Option.some.injEq]
      constructor
      · intro _
        exact hb.mp hc
      · intro _
        trivial
    · rw [if_neg hc]
      simp only [Option.some.injEq]
      constructor
      · intro h
        exact absurd h (by decide)
      · intro h
        exact absurd (hb.mpr h) hc

/-- Witness for C6: a one-tool registry in its initial state, with a raising
client call. -/
theorem C6_call_tool_witness :
    (dictGet ([("geo.lookup", ToolInfo.mk "geo" "lookup")]) "geo.lookup"
       = some (ToolInfo.mk "geo" "lookup")) ∧
    (["geo"].contains "geo" = true) ∧
    (dictGet [("geo.lookup", false)] "geo.lookup" = some false) ∧
    ((call_tool (RegState.mk [("geo.lookup", ToolInfo.mk "geo" "lookup")] ["geo"]
        [("geo.lookup", false)] [("geo", "available")]) "geo.lookup" []
        (ClientOutcome.exc (ρ := ℕ) "boom") 1).2.tools_in_use = [("geo.lookup", false)]) :=
  ⟨by decide, by decide, by decide,
    (C6_call_tool (RegState.mk [("geo.lookup", ToolInfo.mk "geo" "lookup")] ["geo"]
        [("geo.lookup", false)] [("geo", "available")]) "geo.lookup"
        (ToolInfo.mk "geo" "lookup") [] (ClientOutcome.exc (ρ := ℕ) "boom") 1
        (by decide) (by decide) (by decide)).1⟩

/-! ## run_full_council theorem -/

/-- Claim C7: when Stage 1 produces no results, run_full_council returns the
empty stage-1 and stage-2 lists, a stage-3 result whose response is the
literal failure message, and empty metadata, and runs neither Stage 2 nor
Stage 3. -/
theorem C7_run_full_council (o : CouncilOracle) (h : o.stage1 = []) :
    run_full_council o =
      (([], Stage2Field.flat [],
        Stage3Result.mk "error" "All models failed to respond. Please try again.",
        CouncilMeta.empty), ["stage1"]) := by
  rw [run_full_council]
  rw [if_pos (by rw [h]; rfl)]
  rw [h]

/-- Witness for C7 at a concrete oracle whose stage 1 returned nothing. -/
theorem C7_run_full_council_witness :
    run_full_council (CouncilOracle.mk [] 3
        (fun _ => ([], [])) (fun _ => ([], []))
        (fun _ _ => Stage3Result.mk "m" "x") (fun _ _ => Stage3Result.mk "m" "x")) =
      (([], Stage2Field.flat [],
        Stage3Result.mk "error" "All models failed to respond. Please try again.",
        CouncilMeta.empty), ["stage1"]) :=
  C7_run_full_council _ rfl

/-! ## Stage-2 round-trip (labels to models) -/

/-- Claim C2 counterexample: with two responding models m1 and m2, the
ranking text FINAL RANKING: 1. Response A 2. Response A parses to the label
list [Response A, Response A]; composing the label-to-model mapping yields
[m1, m1], which is not a permutation of the responding models [m1, m2]. -/
theorem C2_counterexample :
    parse_ranking_from_text "FINAL RANKING:\n1. Response A\n2. Response A"
      = ["Response A", "Response A"] ∧
    composeRanking (label_to_model [Stage1Entry.mk "m1" "r1", Stage1Entry.mk "m2" "r2"])
      (parse_ranking_from_text "FINAL RANKING:\n1. Response A\n2. Response A")
      = ["m1", "m1"] ∧
    ¬ List.Perm
      (composeRanking (label_to_model [Stage1Entry.mk "m1" "r1", Stage1Entry.mk "m2" "r2"])
        (parse_ranking_from_text "FINAL RANKING:\n1. Response A\n2. Response A"))
      ((List.map (fun e => e.model) [Stage1Entry.mk "m1" "r1", Stage1Entry.mk "m2" "r2"])) := by
  refine ⟨by decide, by decide, ?_⟩
  intro hperm
  have h1 : List.count "m2" (composeRanking
      (label_to_model [Stage1Entry.mk "m1" "r1", Stage1Entry.mk "m2" "r2"])
      (parse_ranking_from_text "FINAL RANKING:\n1. Response A\n2. Response A")) = 0 := by
    decide
  have h2 := hperm.count_eq "m2"
  rw [h1] at h2
  have h3 : List.count "m2"
      (List.map (fun e => e.model) [Stage1Entry.mk "m1" "r1", Stage1Entry.mk "m2" "r2"]) = 1 := by
    decide
  rw [h3] at h2
  exact absurd h2 (by decide)

/-- The labels of a round are pairwise distinct (up to 26 responses). -/
theorem mkLabels_nodup (n : ℕ) (h : n ≤ 26) : (mkLabels n).Nodup := by
  have h26 : (mkLabels 26).Nodup := by decide
  have htake : mkLabels n = (mkLabels 26).take n := by
    unfold mkLabels
    rw [← List.map_take, List.take_range]
    have : n ⊓ 26 = n := by omega
    rw [this]
  rw [htake]
  exact List.Nodup.sublist (List.take_sublist n _) h26

theorem mkLabels_length (n : ℕ) : (mkLabels n).length = n := by
  simp [mkLabels]

/-- Looking up every key of a nodup zip recovers exactly the value list. -/
theorem zip_lookup : ∀ (ls ms : List String), ls.Nodup → ls.length = ms.length →
    List.filterMap (fun l => dictGet (ls.zip ms) l) ls = ms := by
  intro ls
  induction ls with
  | nil =>
    intro ms _ hlen
    cases ms with
    | nil => rfl
    | cons m ms' => simp at hlen
  | cons l ls' ih =>
    intro ms hnd hlen
    cases ms with
    | nil => simp at hlen
    | cons m ms' =>
      have hget : dictGet ((l :: ls').zip (m :: ms')) l = some m := by
        rw [List.zip_cons_cons, dictGet_cons, if_pos rfl]
      have hne : ∀ l' ∈ ls', dictGet ((l :: ls').zip (m :: ms')) l'
          = dictGet (ls'.zip ms') l' := by
        intro l' hl'
        have hnoteq : ¬ ((l, m).1 = l') := by
          intro he
          simp only at he
          exact (List.nodup_cons.mp hnd).1 (by rw [he]; exact hl')
        rw [List.zip_cons_cons, dictGet_cons, if_neg hnoteq]
      rw [List.filterMap_cons]
      rw [hget]
      have : List.filterMap (fun l' => dictGet ((l :: ls').zip (m :: ms')) l') ls'
          = List.filterMap (fun l' => dictGet (ls'.zip ms') l') ls' :=
        List.filterMap_congr hne
      rw [this, ih ms' (List.nodup_cons.mp hnd).2 (by simpa using hlen)]

/-- Claim C2 amended: the label-to-model mapping built from the stage-1 list
is a bijection from the round's labels onto the responding models, so
composing it with a parsed ranking yields each responding model exactly once
whenever the parsed label list is itself a permutation of the round's labels
(which an ill-formed ranking text need not produce, see the counterexample).
At most 26 responses carry distinct labels. -/
theorem C2_round_trip (stage1 : List Stage1Entry) (hn : stage1.length ≤ 26)
    (hm : (stage1.map (fun e => e.model)).Nodup) (s : String)
    (hp : List.Perm (parse_ranking_from_text s) (mkLabels stage1.length)) :
    List.Perm (composeRanking (label_to_model stage1) (parse_ranking_from_text s))
      (stage1.map (fun e => e.model)) ∧
    ∀ mo ∈ stage1.map (fun e => e.model),
      List.count mo (composeRanking (label_to_model stage1)
        (parse_ranking_from_text s)) = 1 := by
  have hfull : composeRanking (label_to_model stage1) (mkLabels stage1.length)
      = stage1.map (fun e => e.model) := by
    unfold composeRanking label_to_model
    exact zip_lookup _ _ (mkLabels_nodup _ hn)
      (by rw [mkLabels_length]; simp)
  have hperm : List.Perm
      (composeRanking (label_to_model stage1) (parse_ranking_from_text s))
      (composeRanking (label_to_model stage1) (mkLabels stage1.length)) :=
    List.Perm.filterMap _ hp
  rw [hfull] at hperm
  refine ⟨hperm, ?_⟩
  intro mo hmo
  rw [hperm.count_eq]
  exact List.count_eq_one_of_mem hm hmo

/-- Witness for C2 at two models and a well-formed ranking text. -/
theorem C2_round_trip_witness :
    ([Stage1Entry.mk "m1" "r1", Stage1Entry.mk "m2" "r2"].length ≤ 26) ∧
    (([Stage1Entry.mk "m1" "r1", Stage1Entry.mk "m2" "r2"].map
      (fun e => e.model)).Nodup) ∧
    List.Perm
      (parse_ranking_from_text "FINAL RANKING:\n1. Response B\n2. Response A")
      (mkLabels [Stage1Entry.mk "m1" "r1", Stage1Entry.mk "m2" "r2"].length) ∧
    List.Perm
      (composeRanking (label_to_model [Stage1Entry.mk "m1" "r1", Stage1Entry.mk "m2" "r2"])
        (parse_ranking_from_text "FINAL RANKING:\n1. Response B\n2. Response A"))
      ([Stage1Entry.mk "m1" "r1", Stage1Entry.mk "m2" "r2"].map (fun e => e.model)) :=
  ⟨by decide, by decide, by decide,
    (C2_round_trip [Stage1Entry.mk "m1" "r1", Stage1Entry.mk "m2" "r2"]
      (by decide) (by decide) "FINAL RANKING:\n1. Response B\n2. Response A"
      (by decide)).1⟩

/-! ## Matcher structure lemmas -/

theorem litM_eq : ∀ (p t r : List Char), litM p t = some r → t = p ++ r := by
  intro p
  induction p with
  | nil =>
    intro t r h
    simp [litM] at h
    rw [h]
    rfl
  | cons p0 ps ih =>
    intro t r h
    cases t with
    | nil => simp [litM] at h
    | cons c cs =>
      rw [litM] at h
      by_cases hc : c = p0
      · rw [if_pos hc] at h
        rw [hc, List.cons_append]
        exact congrArg _ (ih cs r h)
      · rw [if_neg hc] at h
        exact absurd h (by simp)

theorem litM_self : ∀ (p w : List Char), litM p (p ++ w) = some w := by
  intro p
  induction p with
  | nil => intro w; rfl
  | cons p0 ps ih =>
    intro w
    rw [List.cons_append, litM, if_pos rfl]
    exact ih w

theorem litM_litMCI : ∀ (p t r : List Char), litM p t = some r → litMCI p t = some r := by
  intro p
  induction p with
  | nil => intro t r h; exact h
  | cons p0 ps ih =>
    intro t r h
    cases t with
    | nil => simp [litM] at h
    | cons c cs =>
      rw [litM] at h
      by_cases hc : c = p0
      · rw [if_pos hc] at h
        rw [litMCI, if_pos (by rw [hc]; simp [lowerEq])]
        exact ih cs r h
      · rw [if_neg hc] at h
        exact absurd h (by simp)

theorem litMCI_exists : ∀ (p t r : List Char), litMCI p t = some r → ∃ q, t = q ++ r := by
  intro p
  induction p with
  | nil =>
    intro t r h
    simp [litMCI] at h
    exact ⟨[], by rw [h]; rfl⟩
  | cons p0 ps ih =>
    intro t r h
    cases t with
    | nil => simp [litMCI] at h
    | cons c cs =>
      rw [litMCI] at h
      by_cases hc : lowerEq c p0
      · rw [if_pos hc] at h
        obtain ⟨q, hq⟩ := ih cs r h
        exact ⟨c :: q, by rw [List.cons_append, hq]⟩
      · rw [if_neg hc] at h
        exact absurd h (by simp)

theorem litMCI_suffix (p t r : List Char) (h : litMCI p t = some r) : r <:+ t := by
  obtain ⟨q, hq⟩ := litMCI_exists p t r h
  exact ⟨q, hq.symm⟩

theorem litM_suffix (p t r : List Char) (h : litM p t = some r) : r <:+ t :=
  ⟨p, (litM_eq p t r h).symm⟩

theorem wsPlus_suffix (t r : List Char) (h : wsPlus t = some r) : r <:+ t := by
  cases t with
  | nil => simp [wsPlus] at h
  | cons c cs =>
    rw [wsPlus] at h
    by_cases hc : isWhite c
    · rw [if_pos hc] at h
      have h2 : r = cs.dropWhile isWhite := (Option.some.inj h).symm
      rw [h2]
      exact (List.dropWhile_suffix isWhite).trans (List.suffix_cons c cs)
    · rw [if_neg hc] at h
      exact absurd h (by simp)

theorem mentionAt_suffix (t : List Char) (c : Char) (r : List Char)
    (h : mentionAt t = some (c, r)) : r <:+ t := by
  unfold mentionAt at h
  cases h1 : litMCI "Response".data t with
  | none => rw [h1] at h; simp at h
  | some t1 =>
    rw [h1] at h
    dsimp only at h
    cases h2 : wsPlus t1 with
    | none => rw [h2] at h; simp at h
    | some t2 =>
      rw [h2] at h
      dsimp only at h
      cases t2 with
      | nil => simp at h
      | cons c0 cs =>
        dsimp only at h
        by_cases hc : isAlphaC c0
        · rw [if_pos hc] at h
          have hr : r = cs := (congrArg Prod.snd (Option.some.inj h)).symm
          rw [hr]
          exact ((List.suffix_cons c0 cs).trans (wsPlus_suffix t1 _ h2)).trans
            (litMCI_suffix _ t t1 h1)
        · rw [if_neg hc] at h
          simp at h

theorem sepCP_suffix (t r : List Char) (h : sepCP t = some r) : r <:+ t := by
  cases t with
  | nil => simp [sepCP] at h
  | cons c cs =>
    rw [sepCP] at h
    by_cases hc : c = ':' ∨ c = '('
    · rw [if_pos hc] at h
      rw [(Option.some.inj h).symm]
      exact List.suffix_cons c cs
    · rw [if_neg hc] at h
      exact absurd h (by simp)

theorem ratingNum_suffix (t : List Char) (q : ℚ) (r : List Char)
    (h : ratingNum t = some (q, r)) : r <:+ t := by
  cases t with
  | nil => simp [ratingNum] at h
  | cons d rest =>
    rw [ratingNum.eq_def] at h
    dsimp only at h
    by_cases hd : isDigitC d
    · rw [if_pos hd] at h
      cases rest with
      | nil =>
        dsimp only at h
        have : r = [] := (congrArg Prod.snd (Option.some.inj h)).symm
        rw [this]
        exact List.nil_suffix
      | cons p0 rest1 =>
        cases rest1 with
        | nil =>
          dsimp only at h
          have : r = [p0] := (congrArg Prod.snd (Option.some.inj h)).symm
          rw [this]
          exact List.suffix_cons d [p0]
        | cons d2 rest2 =>
          dsimp only at h
          by_cases hpd : p0 = '.' ∧ isDigitC d2
          · rw [if_pos hpd] at h
            have : r = rest2 := (congrArg Prod.snd (Option.some.inj h)).symm
            rw [this]
            exact ⟨[d, p0, d2], rfl⟩
          · rw [if_neg hpd] at h
            have : r = p0 :: d2 :: rest2 := (congrArg Prod.snd (Option.some.inj h)).symm
            rw [this]
            exact List.suffix_cons d _
    · rw [if_neg hd] at h
      exact absurd h (by simp)

theorem fracTail_suffix (t r : List Char) (h : fracTail t = some r) : r <:+ t := by
  unfold fracTail at h
  cases h1 : litM "/".data (t.dropWhile isWhite) with
  | none => rw [h1] at h; simp at h
  | some t1 =>
    rw [h1] at h
    have s1 : t1 <:+ t :=
      (litM_suffix _ _ _ h1).trans (List.dropWhile_suffix isWhite)
    have s2 : r <:+ t1.dropWhile isWhite := litM_suffix _ _ _ h
    exact (s2.trans (List.dropWhile_suffix isWhite)).trans s1

theorem p1_suffix (t : List Char) (a : Char × ℚ) (r : List Char)
    (h : p1 t = some (a, r)) : r <:+ t := by
  unfold p1 at h
  cases h1 : mentionAt t with
  | none => rw [h1] at h; simp at h
  | some Lt1 =>
    obtain ⟨L, t1⟩ := Lt1
    rw [h1] at h
    dsimp only at h
    cases h2 : sepCP (t1.dropWhile isWhite) with
    | none => rw [h2] at h; simp at h
    | some t2 =>
      rw [h2] at h
      dsimp only at h
      cases h3 : ratingNum (t2.dropWhile isWhite) with
      | none => rw [h3] at h; simp at h
      | some qt3 =>
        obtain ⟨q, t3⟩ := qt3
        rw [h3] at h
        dsimp only at h
        cases h4 : fracTail t3 with
        | none => rw [h4] at h; simp at h
        | some t4 =>
          rw [h4] at h
          dsimp only at h
          have hr : r = t4 := (congrArg Prod.snd (Option.some.inj h)).symm
          rw [hr]
          have s4 : t4 <:+ t3 := fracTail_suffix _ _ h4
          have s3 : t3 <:+ t2 :=
            (ratingNum_suffix _ _ _ h3).trans (List.dropWhile_suffix isWhite)
          have s2 : t2 <:+ t1 :=
            (sepCP_suffix _ _ h2).trans (List.dropWhile_suffix isWhite)
          have s1 : t1 <:+ t := mentionAt_suffix t L t1 h1
          exact ((s4.trans s3).trans s2).trans s1

theorem p2_suffix (t : List Char) (a : Char × ℚ) (r : List Char)
    (h : p2 t = some (a, r)) : r <:+ t := by
  unfold p2 at h
  cases h1 : mentionAt t with
  | none => rw [h1] at h; simp at h
  | some Lt1 =>
    obtain ⟨L, t1⟩ := Lt1
    rw [h1] at h
    dsimp only at h
    cases h2 : litM "-".data (t1.dropWhile isWhite) with
    | none => rw [h2] at h; simp at h
    | some t2 =>
      rw [h2] at h
      dsimp only at h
      cases h3 : ratingNum (t2.dropWhile isWhite) with
      | none => rw [h3] at h; simp at h
      | some qt3 =>
        obtain ⟨q, t3⟩ := qt3
        rw [h3] at h
        dsimp only at h
        cases h4 : fracTail t3 with
        | none => rw [h4] at h; simp at h
        | some t4 =>
          rw [h4] at h
          dsimp only at h
          have hr : r = t4 := (congrArg Prod.snd (Option.some.inj h)).symm
          rw [hr]
          have s4 : t4 <:+ t3 := fracTail_suffix _ _ h4
          have s3 : t3 <:+ t2 :=
            (ratingNum_suffix _ _ _ h3).trans (List.dropWhile_suffix isWhite)
          have s2 : t2 <:+ t1 :=
            (litM_suffix _ _ _ h2).trans (List.dropWhile_suffix isWhite)
          have s1 : t1 <:+ t := mentionAt_suffix t L t1 h1
          exact ((s4.trans s3).trans s2).trans s1

theorem p1_mentionAt (t : List Char) (L : Char) (q : ℚ) (r : List Char)
    (h : p1 t = some ((L, q), r)) : ∃ rest, mentionAt t = some (L, rest) := by
  unfold p1 at h
  cases h1 : mentionAt t with
  | none => rw [h1] at h; simp at h
  | some Lt1 =>
    obtain ⟨L0, t1⟩ := Lt1
    rw [h1] at h
    dsimp only at h
    cases h2 : sepCP (t1.dropWhile isWhite) with
    | none => rw [h2] at h; simp at h
    | some t2 =>
      rw [h2] at h
      dsimp only at h
      cases h3 : ratingNum (t2.dropWhile isWhite) with
      | none => rw [h3] at h; simp at h
      | some qt3 =>
        obtain ⟨q0, t3⟩ := qt3
        rw [h3] at h
        dsimp only at h
        cases h4 : fracTail t3 with
        | none => rw [h4] at h; simp at h
        | some t4 =>
          rw [h4] at h
          dsimp only at h
          have hL : L0 = L := congrArg (fun x => x.1.1) (Option.some.inj h)
          exact ⟨t1, by rw [← hL]⟩

theorem p2_mentionAt (t : List Char) (L : Char) (q : ℚ) (r : List Char)
    (h : p2 t = some ((L, q), r)) : ∃ rest, mentionAt t = some (L, rest) := by
  unfold p2 at h
  cases h1 : mentionAt t with
  | none => rw [h1] at h; simp at h
  | some Lt1 =>
    obtain ⟨L0, t1⟩ := Lt1
    rw [h1] at h
    dsimp only at h
    cases h2 : litM "-".data (t1.dropWhile isWhite) with
    | none => rw [h2] at h; simp at h
    | some t2 =>
      rw [h2] at h
      dsimp only at h
      cases h3 : ratingNum (t2.dropWhile isWhite) with
      | none => rw [h3] at h; simp at h
      | some qt3 =>
        obtain ⟨q0, t3⟩ := qt3
        rw [h3] at h
        dsimp only at h
        cases h4 : fracTail t3 with
        | none => rw [h4] at h; simp at h
        | some t4 =>
          rw [h4] at h
          dsimp only at h
          have hL : L0 = L := congrArg (fun x => x.1.1) (Option.some.inj h)
          exact ⟨t1, by rw [← hL]⟩

theorem respLabelAt_eq (t : List Char) (c : Char) (r : List Char)
    (h : respLabelAt t = some (c, r)) :
    t = "Response ".data ++ c :: r ∧ 65 ≤ c.toNat ∧ c.toNat ≤ 90 := by
  unfold respLabelAt at h
  cases h1 : litM "Response ".data t with
  | none => rw [h1] at h; simp at h
  | some t1 =>
    rw [h1] at h
    dsimp only at h
    cases t1 with
    | nil => simp at h
    | cons c0 cs =>
      dsimp only at h
      by_cases hc : 65 ≤ c0.toNat ∧ c0.toNat ≤ 90
      · rw [if_pos hc] at h
        have hcc : c0 = c := congrArg Prod.fst (Option.some.inj h)
        have hrr : cs = r := congrArg Prod.snd (Option.some.inj h)
        refine ⟨?_, hcc ▸ hc.1, hcc ▸ hc.2⟩
        rw [litM_eq _ _ _ h1, hcc, hrr]
      · rw [if_neg hc] at h
        simp at h

theorem respLabelAt_suffix (t : List Char) (c : Char) (r : List Char)
    (h : respLabelAt t = some (c, r)) : r <:+ t := by
  obtain ⟨he, _, _⟩ := respLabelAt_eq t c r h
  exact ⟨"Response ".data ++ [c], by rw [he]; simp⟩

theorem numAt_resp (t : List Char) (c : Char) (r : List Char)
    (h : numAt t = some (c, r)) : ∃ u, u <:+ t ∧ respLabelAt u = some (c, r) := by
  unfold numAt at h
  cases t with
  | nil => simp at h
  | cons c0 cs =>
    dsimp only at h
    by_cases hd : isDigitC c0
    · rw [if_pos hd] at h
      cases h1 : litM ".".data ((c0 :: cs).dropWhile isDigitC) with
      | none => rw [h1] at h; simp at h
      | some t2 =>
        rw [h1] at h
        dsimp only at h
        refine ⟨t2.dropWhile isWhite, ?_, h⟩
        have s1 : t2.dropWhile isWhite <:+ t2 := List.dropWhile_suffix isWhite
        have s2 : t2 <:+ (c0 :: cs).dropWhile isDigitC := litM_suffix _ _ _ h1
        exact (s1.trans s2).trans (List.dropWhile_suffix isDigitC)
    · rw [if_neg hd] at h
      exact absurd h (by simp)

theorem numAt_suffix (t : List Char) (c : Char) (r : List Char)
    (h : numAt t = some (c, r)) : r <:+ t := by
  obtain ⟨u, hu, hr⟩ := numAt_resp t c r h
  exact (respLabelAt_suffix u c r hr).trans hu

theorem scanA_mem {α : Type} (m : List Char → Option (α × List Char))
    (hsuf : ∀ u a r, m u = some (a, r) → r <:+ u) :
    ∀ (f : ℕ) (t : List Char) (a : α), a ∈ scanA m f t →
      ∃ u r, u <:+ t ∧ m u = some (a, r) := by
  intro f
  induction f with
  | zero => intro t a ha; simp [scanA] at ha
  | succ f ih =>
    intro t a ha
    cases t with
    | nil => simp [scanA] at ha
    | cons c cs =>
      rw [scanA] at ha
      cases hm : m (c :: cs) with
      | some ar =>
        rw [hm] at ha
        rcases List.mem_cons.mp ha with h | h
        · exact ⟨c :: cs, ar.2, List.suffix_refl _, by rw [hm, h]⟩
        · obtain ⟨u, r, hu, hmu⟩ := ih ar.2 a h
          exact ⟨u, r, hu.trans (hsuf (c :: cs) ar.1 ar.2 hm), hmu⟩
      | none =>
        rw [hm] at ha
        obtain ⟨u, r, hu, hmu⟩ := ih cs a ha
        exact ⟨u, r, hu.trans (List.suffix_cons c cs), hmu⟩

/-! ## Mention lemmas: every extracted or parsed label occurs in the text -/

theorem isWhite_upper (c : Char) (h1 : 65 ≤ c.toNat) : isWhite c = false := by
  simp only [isWhite, Bool.or_eq_false_iff, decide_eq_false_iff_not]
  refine ⟨⟨⟨⟨⟨?_, ?_⟩, ?_⟩, ?_⟩, ?_⟩, ?_⟩ <;>
    exact fun he => absurd (he ▸ h1) (by decide)

theorem toUpper_upper (c : Char) (h1 : 65 ≤ c.toNat) (h2 : c.toNat ≤ 90) :
    c.toUpper = c := by
  have : ¬ (c.toNat ≥ 97 ∧ c.toNat ≤ 122) := by omega
  simp [Char.toUpper, this]

theorem isAlphaC_upper (c : Char) (h1 : 65 ≤ c.toNat) (h2 : c.toNat ≤ 90) :
    isAlphaC c = true := by
  simp [isAlphaC]
  omega

theorem mentionAt_resp (c : Char) (w : List Char) (h1 : 65 ≤ c.toNat)
    (h2 : c.toNat ≤ 90) : mentionAt ("Response ".data ++ c :: w) = some (c, w) := by
  have hsplit : "Response ".data ++ c :: w = "Response".data ++ (' ' :: c :: w) := rfl
  unfold mentionAt
  rw [hsplit, litM_litMCI _ _ _ (litM_self "Response".data (' ' :: c :: w))]
  dsimp only
  have hws : wsPlus (' ' :: c :: w) = some (c :: w) := by
    unfold wsPlus
    dsimp only
    rw [if_pos (by decide)]
    rw [List.dropWhile_cons]
    rw [if_neg (by rw [isWhite_upper c h1]; simp)]
  rw [hws]
  dsimp only
  rw [if_pos (isAlphaC_upper c h1 h2)]
  rw [toUpper_upper c h1 h2]

theorem findSub_eq (sep : List Char) : ∀ (t a b : List Char),
    findSub sep t = some (a, b) → t = a ++ sep ++ b := by
  intro t
  induction t with
  | nil =>
    intro a b h
    rw [findSub] at h
    by_cases hs : sep = []
    · rw [if_pos hs] at h
      have ha : a = [] := (congrArg Prod.fst (Option.some.inj h)).symm
      have hb : b = [] := (congrArg Prod.snd (Option.some.inj h)).symm
      rw [ha, hb, hs]
      rfl
    · rw [if_neg hs] at h
      exact absurd h (by simp)
  | cons c cs ih =>
    intro a b h
    rw [findSub] at h
    by_cases hp : sep.isPrefixOf (c :: cs)
    · rw [if_pos hp] at h
      have ha : a = [] := (congrArg Prod.fst (Option.some.inj h)).symm
      have hb : b = (c :: cs).drop sep.length :=
        (congrArg Prod.snd (Option.some.inj h)).symm
      obtain ⟨w, hw⟩ := List.isPrefixOf_iff_prefix.mp hp
      rw [ha, hb, ← hw, List.nil_append, List.drop_left]
    · rw [if_neg hp] at h
      cases hf : findSub sep cs with
      | none => rw [hf] at h; simp at h
      | some ab =>
        rw [hf] at h
        have ha : a = c :: ab.1 := (congrArg Prod.fst (Option.some.inj h)).symm
        have hb : b = ab.2 := (congrArg Prod.snd (Option.some.inj h)).symm
        rw [ha, hb]
        have := ih ab.1 ab.2 (by rw [hf])
        rw [List.cons_append, List.cons_append, ← this]

theorem part1_infix (sep t seg : List Char) (h : part1 sep t = some seg) :
    ∃ u v, t = u ++ seg ++ v := by
  unfold part1 at h
  cases h1 : findSub sep t with
  | none => rw [h1] at h; simp at h
  | some apost =>
    obtain ⟨pre, post⟩ := apost
    rw [h1] at h
    dsimp only at h
    have ht : t = pre ++ sep ++ post := findSub_eq sep t pre post h1
    cases h2 : findSub sep post with
    | none =>
      rw [h2] at h
      dsimp only at h
      have hseg : seg = post := (Option.some.inj h).symm
      exact ⟨pre ++ sep, [], by rw [ht, hseg]; simp⟩
    | some ab2 =>
      obtain ⟨a2, b2⟩ := ab2
      rw [h2] at h
      dsimp only at h
      have hseg : seg = a2 := (Option.some.inj h).symm
      have hpost : post = a2 ++ sep ++ b2 := findSub_eq sep post a2 b2 h2
      exact ⟨pre ++ sep, sep ++ b2, by rw [ht, hpost, hseg]; simp⟩

/-- A letter label is mentioned in a text: some suffix carries a
case-insensitive Response, whitespace, and that letter. -/
def labelMentioned (c : Char) (t : List Char) : Prop :=
  ∃ u rest, u <:+ t ∧ mentionAt u = some (c, rest)

theorem respLabel_mention_infix (t seg u : List Char) (c : Char) (r : List Char)
    (hinf : ∃ x y, t = x ++ seg ++ y) (hu : u <:+ seg)
    (hresp : respLabelAt u = some (c, r)) : labelMentioned c t := by
  obtain ⟨x, y, hxy⟩ := hinf
  obtain ⟨w, hw⟩ := hu
  obtain ⟨he, hc1, hc2⟩ := respLabelAt_eq u c r hresp
  refine ⟨"Response ".data ++ c :: (r ++ y), r ++ y, ?_, ?_⟩
  · refine ⟨x ++ w, ?_⟩
    rw [hxy, ← hw, he]
    simp
  · exact mentionAt_resp c (r ++ y) hc1 hc2

theorem parse_mention (s : String) (lbl : String)
    (hl : lbl ∈ parse_ranking_from_text s) :
    ∃ c, lbl = mkLabelStr c ∧ labelMentioned c s.data := by
  unfold parse_ranking_from_text at hl
  cases hpart : part1 frSep s.data with
  | none =>
    rw [hpart] at hl
    obtain ⟨c, hc, hlbl⟩ := List.mem_map.mp hl
    obtain ⟨u, r, hu, hm⟩ := scanA_mem respLabelAt
      (fun u a r h => respLabelAt_suffix u a r h) _ _ _ hc
    refine ⟨c, hlbl.symm, ?_⟩
    exact respLabel_mention_infix s.data s.data u c r ⟨[], [], by simp⟩ hu hm
  | some seg =>
    rw [hpart] at hl
    dsimp only at hl
    have hinf : ∃ x y, s.data = x ++ seg ++ y := part1_infix frSep s.data seg hpart
    by_cases hnum : (scanL numAt seg).isEmpty
    · rw [if_pos hnum] at hl
      obtain ⟨c, hc, hlbl⟩ := List.mem_map.mp hl
      obtain ⟨u, r, hu, hm⟩ := scanA_mem respLabelAt
        (fun u a r h => respLabelAt_suffix u a r h) _ _ _ hc
      exact ⟨c, hlbl.symm, respLabel_mention_infix s.data seg u c r hinf hu hm⟩
    · rw [if_neg hnum] at hl
      obtain ⟨c, hc, hlbl⟩ := List.mem_map.mp hl
      obtain ⟨u, r, hu, hm⟩ := scanA_mem numAt
        (fun u a r h => numAt_suffix u a r h) _ _ _ hc
      obtain ⟨u2, hu2, hresp⟩ := numAt_resp u c r hm
      exact ⟨c, hlbl.symm,
        respLabel_mention_infix s.data seg u2 c r hinf (hu2.trans hu) hresp⟩

/-! ## Dict fold lemmas for extract_quality_ratings -/

theorem mem_dictSet {β : Type} (m : List (String × β)) (k : String) (v : β)
    (p : String × β) (hp : p ∈ dictSet m k v) : p.1 = k ∨ p ∈ m := by
  induction m with
  | nil =>
    simp [dictSet] at hp
    rw [hp]
    exact Or.inl rfl
  | cons q rest ih =>
    by_cases hq : q.1 = k
    · rw [dictSet, if_pos hq] at hp
      rcases List.mem_cons.mp hp with h | h
      · rw [h]
        exact Or.inl rfl
      · exact Or.inr (List.mem_cons_of_mem _ h)
    · rw [dictSet, if_neg hq] at hp
      rcases List.mem_cons.mp hp with h | h
      · exact Or.inr (h ▸ List.mem_cons_self _ _)
      · rcases ih h with h2 | h2
        · exact Or.inl h2
        · exact Or.inr (List.mem_cons_of_mem _ h2)

theorem fold1_mem : ∀ (l : List (Char × ℚ)) (acc : List (String × ℚ))
    (p : String × ℚ), p ∈ l.foldl eqrStep1 acc →
    p ∈ acc ∨ ∃ x ∈ l, p.1 = mkLabelStr x.1 := by
  intro l
  induction l with
  | nil => intro acc p hp; exact Or.inl hp
  | cons lq ls ih =>
    intro acc p hp
    rw [List.foldl_cons] at hp
    rcases ih _ p hp with h | h
    · rcases mem_dictSet _ _ _ p h with h2 | h2
      · exact Or.inr ⟨lq, List.mem_cons_self _ _, h2⟩
      · exact Or.inl h2
    · obtain ⟨x, hx, he⟩ := h
      exact Or.inr ⟨x, List.mem_cons_of_mem _ hx, he⟩

theorem fold2_mem : ∀ (l : List (Char × ℚ)) (acc : List (String × ℚ))
    (p : String × ℚ), p ∈ l.foldl eqrStep2 acc →
    p ∈ acc ∨ ∃ x ∈ l, p.1 = mkLabelStr x.1 := by
  intro l
  induction l with
  | nil => intro acc p hp; exact Or.inl hp
  | cons lq ls ih =>
    intro acc p hp
    rw [List.foldl_cons] at hp
    rcases ih _ p hp with h | h
    · rw [eqrStep2.eq_def] at h
      rcases hg : dictGet acc (mkLabelStr lq.1) with _ | v
      · rw [hg] at h
        rcases mem_dictSet _ _ _ p h with h2 | h2
        · exact Or.inr ⟨lq, List.mem_cons_self _ _, h2⟩
        · exact Or.inl h2
      · rw [hg] at h
        exact Or.inl h
    · obtain ⟨x, hx, he⟩ := h
      exact Or.inr ⟨x, List.mem_cons_of_mem _ hx, he⟩

theorem foldP_mem : ∀ (l : List (ℕ × String)) (acc : List (String × ℚ))
    (p : String × ℚ), p ∈ l.foldl posStep acc →
    p ∈ acc ∨ ∃ il ∈ l, p.1 = il.2 := by
  intro l
  induction l with
  | nil => intro acc p hp; exact Or.inl hp
  | cons il ils ih =>
    intro acc p hp
    rw [List.foldl_cons] at hp
    rcases ih _ p hp with h | h
    · rcases mem_dictSet _ _ _ p h with h2 | h2
      · exact Or.inr ⟨il, List.mem_cons_self _ _, h2⟩
      · exact Or.inl h2
    · obtain ⟨x, hx, he⟩ := h
      exact Or.inr ⟨x, List.mem_cons_of_mem _ hx, he⟩

theorem dictGet_append {β : Type} (m m' : List (String × β)) (k : String) :
    dictGet (m ++ m') k =
      match dictGet m k with
      | some v => some v
      | none => dictGet m' k := by
  induction m with
  | nil => simp [dictGet_nil]
  | cons q rest ih =>
    by_cases hq : q.1 = k
    · rw [List.cons_append, dictGet_cons, if_pos hq, dictGet_cons, if_pos hq]
    · rw [List.cons_append, dictGet_cons, if_neg hq, dictGet_cons, if_neg hq, ih]

theorem dictSet_append_none {β : Type} (m : List (String × β)) (k : String) (v : β)
    (h : dictGet m k = none) : dictSet m k v = m ++ [(k, v)] := by
  induction m with
  | nil => rfl
  | cons q rest ih =>
    by_cases hq : q.1 = k
    · rw [dictGet_cons, if_pos hq] at h
      simp at h
    · rw [dictGet_cons, if_neg hq] at h
      rw [dictSet, if_neg hq, ih h, List.cons_append]

theorem foldl_posStep_eq : ∀ (l : List (ℕ × String)) (acc : List (String × ℚ)),
    (l.map Prod.snd).Nodup → (∀ il ∈ l, dictGet acc il.2 = none) →
    l.foldl posStep acc = acc ++ l.map (fun il => (il.2, max 1 (5 - (il.1 : ℚ)))) := by
  intro l
  induction l with
  | nil => intro acc _ _; simp
  | cons il ils ih =>
    intro acc hnd hnone
    rw [List.map_cons, List.nodup_cons] at hnd
    rw [List.foldl_cons]
    have hstep : posStep acc il = acc ++ [(il.2, max 1 (5 - (il.1 : ℚ)))] :=
      dictSet_append_none _ _ _ (hnone il (List.mem_cons_self _ _))
    rw [hstep, ih _ hnd.2 ?_]
    · simp
    · intro il' hil'
      rw [dictGet_append]
      rw [hnone il' (List.mem_cons_of_mem _ hil')]
      have hne : ¬ (il.2 = il'.2) := by
        intro he
        exact hnd.1 (he ▸ List.mem_map_of_mem Prod.snd hil')
      rw [dictGet_cons, if_neg hne, dictGet_nil]

/-! ## The C1 theorems -/

/-- Claim C1 counterexample: in a two-response round (labels Response A and
Response B), the ranking text Response C (3/5) yields a quality-ratings map
whose only key is Response C, which is outside the round's label set, while
the unmentioned round label Response A receives no rating at all rather than
a positional one. -/
theorem C1_counterexample :
    extract_quality_ratings "Response C (3/5)" = [("Response C", 3)] ∧
    "Response C" ∉ mkLabels 2 ∧
    "Response A" ∈ mkLabels 2 ∧
    dictGet (extract_quality_ratings "Response C (3/5)") "Response A" = none := by
  refine ⟨by decide, by decide, by decide, by decide⟩

/-- Claim C1 amended: every label of the quality-ratings map is a label
mentioned in the ranking text itself (so keys stay inside the round's label
set only when the ranker mentions only round labels, and a round label absent
from the text gets no rating); when neither explicit rating pattern matches
anywhere, the map assigns each label of the parsed ranking its positional
rating max(1, 5 - index), in parsed order. -/
theorem C1_quality_ratings (s : String) :
    (∀ p ∈ extract_quality_ratings s,
      ∃ c, p.1 = mkLabelStr c ∧ labelMentioned c s.data) ∧
    (scanL p1 s.data = [] → scanL p2 s.data = [] →
      (parse_ranking_from_text s).Nodup →
      extract_quality_ratings s
        = (parse_ranking_from_text s).enum.map
            (fun il => (il.2, max 1 (5 - (il.1 : ℚ))))) := by
  constructor
  · intro p hp
    unfold extract_quality_ratings at hp
    by_cases hemp : ((scanL p2 s.data).foldl eqrStep2
        ((scanL p1 s.data).foldl eqrStep1 [])).isEmpty
    · rw [if_pos hemp] at hp
      rcases foldP_mem _ _ _ hp with h | h
      · simp at h
      · obtain ⟨il, hil, he⟩ := h
        have hmem : il.2 ∈ parse_ranking_from_text s := by
          have := List.mem_map_of_mem Prod.snd hil
          rw [List.enum_map_snd] at this
          exact this
        obtain ⟨c, hc1, hc2⟩ := parse_mention s il.2 hmem
        exact ⟨c, he ▸ hc1, hc2⟩
    · rw [if_neg hemp] at hp
      rcases fold2_mem _ _ _ hp with h | h
      · rcases fold1_mem _ _ _ h with h2 | h2
        · simp at h2
        · obtain ⟨x, hx, he⟩ := h2
          obtain ⟨u, r, hu, hm⟩ := scanA_mem p1
            (fun u a r hh => p1_suffix u a r hh) _ _ _ hx
          obtain ⟨rest, hrest⟩ := p1_mentionAt u x.1 x.2 r (by rw [hm])
          exact ⟨x.1, he, u, rest, hu, hrest⟩
      · obtain ⟨x, hx, he⟩ := h
        obtain ⟨u, r, hu, hm⟩ := scanA_mem p2
          (fun u a r hh => p2_suffix u a r hh) _ _ _ hx
        obtain ⟨rest, hrest⟩ := p2_mentionAt u x.1 x.2 r (by rw [hm])
        exact ⟨x.1, he, u, rest, hu, hrest⟩
  · intro h1 h2 hnd
    unfold extract_quality_ratings
    rw [h1, h2]
    rw [if_pos (by rfl)]
    have hsnd : ((parse_ranking_from_text s).enum.map Prod.snd).Nodup := by
      rw [List.enum_map_snd]
      exact hnd
    have := foldl_posStep_eq (parse_ranking_from_text s).enum [] hsnd
      (fun il _ => dictGet_nil il.2)
    rw [this, List.nil_append]

/-- Witness for C1 at a ranking text without explicit ratings. -/
theorem C1_quality_ratings_witness :
    (scanL p1 "FINAL RANKING:\n1. Response A\n2. Response B".data = []) ∧
    (scanL p2 "FINAL RANKING:\n1. Response A\n2. Response B".data = []) ∧
    (parse_ranking_from_text "FINAL RANKING:\n1. Response A\n2. Response B").Nodup ∧
    extract_quality_ratings "FINAL RANKING:\n1. Response A\n2. Response B"
      = (parse_ranking_from_text "FINAL RANKING:\n1. Response A\n2. Response B").enum.map
          (fun il => (il.2, max 1 (5 - (il.1 : ℚ)))) :=
  ⟨by decide, by decide, by decide,
    (C1_quality_ratings "FINAL RANKING:\n1. Response A\n2. Response B").2
      (by decide) (by decide) (by decide)⟩

/-! ## Aggregate-ranking permutation invariance -/

theorem posM_nil (m : String) : posM [] m = 0 := rfl

theorem posM_cons (p : String × List ℕ) (rest : List (String × List ℕ)) (m : String) :
    posM (p :: rest) m = if p.1 = m then (p.2 : Multiset ℕ) else posM rest m := by
  by_cases h : p.1 = m <;> simp [posM, dictGet_cons, h]

theorem posM_dictAppend (acc : List (String × List ℕ)) (k : String) (v : ℕ) (m : String) :
    posM (dictAppend acc k v) m
      = posM acc m + (if k = m then ({v} : Multiset ℕ) else 0) := by
  induction acc with
  | nil =>
    by_cases h : k = m
    · simp [dictAppend, posM_cons, posM_nil, h]
    · simp [dictAppend, posM_cons, posM_nil, h]
  | cons p rest ih =>
    by_cases hpk : p.1 = k
    · rw [dictAppend, if_pos hpk]
      by_cases hpm : p.1 = m
      · have hkm : k = m := hpk.symm.trans hpm
        have e1 : ((p.1, p.2 ++ [v]) : String × List ℕ).1 = m := hpm
        rw [posM_cons, posM_cons, if_pos e1, if_pos hpm, if_pos hkm]
        rw [← Multiset.coe_singleton, ← Multiset.coe_add]
      · have hkm : ¬ (k = m) := fun he => hpm (hpk.trans he)
        have e1 : ¬ (((p.1, p.2 ++ [v]) : String × List ℕ).1 = m) := hpm
        rw [posM_cons, posM_cons, if_neg e1, if_neg hpm, if_neg hkm, add_zero]
    · rw [dictAppend, if_neg hpk]
      by_cases hpm : p.1 = m
      · have hkm : ¬ (k = m) := fun he => hpk (hpm.trans he.symm)
        rw [posM_cons, posM_cons, if_pos hpm, if_pos hpm, if_neg hkm, add_zero]
      · rw [posM_cons, posM_cons, if_neg hpm, if_neg hpm]
        exact ih

theorem posM_innerFold (ltm : List (String × String)) (m : String) :
    ∀ (l : List (ℕ × String)) (acc : List (String × List ℕ)),
      posM (l.foldl (innerStep ltm) acc) m = posM acc m + contribL l ltm m := by
  intro l
  induction l with
  | nil => intro acc; simp [contribL]
  | cons il ils ih =>
    intro acc
    rw [List.foldl_cons, ih]
    cases hg : dictGet ltm il.2 with
    | none =>
      have h1 : innerStep ltm acc il = acc := by simp [innerStep, hg]
      have h2 : contribL (il :: ils) ltm m = contribL ils ltm m := by
        simp [contribL, List.filterMap_cons, hg]
      rw [h1, h2]
    | some m' =>
      have h1 : innerStep ltm acc il = dictAppend acc m' (il.1 + 1) := by
        simp [innerStep, hg]
      rw [h1, posM_dictAppend]
      by_cases hm : m' = m
      · have h2 : contribL (il :: ils) ltm m = (il.1 + 1) ::ₘ contribL ils ltm m := by
          simp [contribL, List.filterMap_cons, hg, hm]
        rw [h2, if_pos hm, add_assoc, Multiset.singleton_add]
      · have h2 : contribL (il :: ils) ltm m = contribL ils ltm m := by
          simp [contribL, List.filterMap_cons, hg, hm]
        rw [h2, if_neg hm, add_zero]

theorem posM_outerFold (ltm : List (String × String)) (m : String) :
    ∀ (l : List RankEntry) (acc : List (String × List ℕ)),
      posM (l.foldl (outerStep ltm) acc) m = posM acc m +
        (l.map (fun r => contribL (parse_ranking_from_text r.ranking).enum ltm m)).sum := by
  intro l
  induction l with
  | nil => intro acc; simp
  | cons r rs ih =>
    intro acc
    rw [List.foldl_cons, ih]
    have h1 : posM (outerStep ltm acc r) m
        = posM acc m + contribL (parse_ranking_from_text r.ranking).enum ltm m := by
      rw [outerStep.eq_def, posM_innerFold]
    rw [h1, List.map_cons, List.sum_cons, add_assoc]

theorem posM_modelPositions (l : List RankEntry) (ltm : List (String × String))
    (m : String) : posM (modelPositions l ltm) m =
      (l.map (fun r => contribL (parse_ranking_from_text r.ranking).enum ltm m)).sum := by
  rw [modelPositions.eq_def, posM_outerFold, posM_nil, zero_add]

theorem posM_perm (l1 l2 : List RankEntry) (ltm : List (String × String))
    (hp : l1.Perm l2) (m : String) :
    posM (modelPositions l1 ltm) m = posM (modelPositions l2 ltm) m := by
  rw [posM_modelPositions, posM_modelPositions]
  exact List.Perm.sum_eq (hp.map _)

theorem foldl_inv {α β : Type} (P : α → Prop) (step : α → β → α)
    (hstep : ∀ acc x, P acc → P (step acc x)) :
    ∀ (l : List β) (acc : α), P acc → P (l.foldl step acc) := by
  intro l
  induction l with
  | nil => intro acc h; exact h
  | cons x xs ih => intro acc h; exact ih (step acc x) (hstep acc x h)

theorem mem_keys_dictAppend (m : List (String × List ℕ)) (k : String) (v : ℕ)
    (x : String) (hx : x ∈ (dictAppend m k v).map Prod.fst) :
    x ∈ m.map Prod.fst ∨ x = k := by
  induction m with
  | nil => simp [dictAppend] at hx; simp [hx]
  | cons p rest ih =>
    by_cases hpk : p.1 = k
    · rw [dictAppend, if_pos hpk] at hx
      simp only [List.map_cons, List.mem_cons] at hx ⊢
      rcases hx with h | h
      · exact Or.inl (Or.inl h)
      · exact Or.inl (Or.inr h)
    · rw [dictAppend, if_neg hpk] at hx
      simp only [List.map_cons, List.mem_cons] at hx ⊢
      rcases hx with h | h
      · exact Or.inl (Or.inl h)
      · rcases ih h with h2 | h2
        · exact Or.inl (Or.inr h2)
        · exact Or.inr h2

theorem keys_nodup_dictAppend (m : List (String × List ℕ)) (k : String) (v : ℕ)
    (hnd : (m.map Prod.fst).Nodup) : ((dictAppend m k v).map Prod.fst).Nodup := by
  induction m with
  | nil => simp [dictAppend]
  | cons p rest ih =>
    rw [List.map_cons, List.nodup_cons] at hnd
    by_cases hpk : p.1 = k
    · rw [dictAppend, if_pos hpk]
      simp only [List.map_cons, List.nodup_cons]
      exact hnd
    · rw [dictAppend, if_neg hpk]
      simp only [List.map_cons, List.nodup_cons]
      refine ⟨?_, ih hnd.2⟩
      intro hmem
      rcases mem_keys_dictAppend rest k v p.1 hmem with h | h
      · exact hnd.1 h
      · exact hpk h

theorem vals_dictAppend (m : List (String × List ℕ)) (k : String) (v : ℕ)
    (hv : ∀ p ∈ m, p.2 ≠ []) : ∀ p ∈ dictAppend m k v, p.2 ≠ [] := by
  induction m with
  | nil =>
    intro p hp
    simp [dictAppend] at hp
    rw [hp]
    simp
  | cons q rest ih =>
    intro p hp
    by_cases hqk : q.1 = k
    · rw [dictAppend, if_pos hqk] at hp
      rcases List.mem_cons.mp hp with h | h
      · rw [h]
        simp
      · exact hv p (List.mem_cons_of_mem _ h)
    · rw [dictAppend, if_neg hqk] at hp
      rcases List.mem_cons.mp hp with h | h
      · exact h ▸ hv q (List.mem_cons_self _ _)
      · exact ih (fun p' hp' => hv p' (List.mem_cons_of_mem _ hp')) p h

/-- The registry invariant of model_positions: keys are distinct and no
stored positions list is empty. -/
def MPInv (acc : List (String × List ℕ)) : Prop :=
  (acc.map Prod.fst).Nodup ∧ ∀ p ∈ acc, p.2 ≠ []

theorem innerStep_inv (ltm : List (String × String)) (acc : List (String × List ℕ))
    (il : ℕ × String) (h : MPInv acc) : MPInv (innerStep ltm acc il) := by
  rw [innerStep.eq_def]
  cases hg : dictGet ltm il.2 with
  | none => exact h
  | some m' => exact ⟨keys_nodup_dictAppend _ _ _ h.1, vals_dictAppend _ _ _ h.2⟩

theorem modelPositions_inv (l : List RankEntry) (ltm : List (String × String)) :
    MPInv (modelPositions l ltm) := by
  rw [modelPositions.eq_def]
  refine foldl_inv MPInv (outerStep ltm) ?_ l [] ⟨List.nodup_nil, by intro p hp; simp at hp⟩
  intro acc r hacc
  rw [outerStep.eq_def]
  exact foldl_inv MPInv (innerStep ltm) (innerStep_inv ltm) _ acc hacc

theorem dictGet_of_mem_nodup (m : List (String × List ℕ))
    (hnd : (m.map Prod.fst).Nodup) (p : String × List ℕ) (hp : p ∈ m) :
    dictGet m p.1 = some p.2 := by
  induction m with
  | nil => simp at hp
  | cons q rest ih =>
    rw [List.map_cons, List.nodup_cons] at hnd
    rcases List.mem_cons.mp hp with h | h
    · rw [h, dictGet_cons, if_pos rfl]
    · have hne : ¬ (q.1 = p.1) := by
        intro he
        exact hnd.1 (he ▸ List.mem_map_of_mem Prod.fst h)
      rw [dictGet_cons, if_neg hne]
      exact ih hnd.2 h

theorem mem_keys_get (m : List (String × List ℕ)) (x : String)
    (hx : x ∈ m.map Prod.fst) : ∃ v, dictGet m x = some v := by
  induction m with
  | nil => simp at hx
  | cons q rest ih =>
    by_cases hq : q.1 = x
    · exact ⟨q.2, by rw [dictGet_cons, if_pos hq]⟩
    · rw [List.map_cons, List.mem_cons] at hx
      rcases hx with h | h
      · exact absurd h.symm hq
      · obtain ⟨v, hv⟩ := ih h
        exact ⟨v, by rw [dictGet_cons, if_neg hq]; exact hv⟩

theorem posM_ne_zero_iff (mp : List (String × List ℕ)) (hinv : MPInv mp) (x : String) :
    posM mp x ≠ 0 ↔ x ∈ mp.map Prod.fst := by
  constructor
  · intro h
    cases hg : dictGet mp x with
    | none => exact absurd (by simp [posM, hg]) h
    | some v =>
      have := dictGet_mem mp x v hg
      exact List.mem_map_of_mem Prod.fst this
  · intro h
    obtain ⟨v, hv⟩ := mem_keys_get mp x h
    have hne : v ≠ [] := hinv.2 (x, v) (dictGet_mem mp x v hv)
    simp [posM, hv]
    exact fun he => hne (by exact_mod_cast he)

theorem aggEntries_eq (mp : List (String × List ℕ)) (hinv : MPInv mp) :
    aggEntries mp = (mp.map Prod.fst).map (entryOfPos mp) := by
  have h1 : ∀ p ∈ mp,
      (if p.2.isEmpty then none
       else some (AggEntry.mk p.1 (roundTo2 ((p.2.sum : ℚ) / (p.2.length : ℚ))) p.2.length))
      = (some ∘ fun p : String × List ℕ => entryOfPos mp p.1) p := by
    intro p hp
    have hne : p.2 ≠ [] := hinv.2 p hp
    rw [if_neg (by simp [hne])]
    have hpos : posM mp p.1 = (p.2 : Multiset ℕ) := by
      simp [posM, dictGet_of_mem_nodup mp hinv.1 p hp]
    simp only [Function.comp_apply, entryOfPos, hpos, Multiset.sum_coe,
      Multiset.coe_card]
  rw [aggEntries.eq_def, List.filterMap_congr h1, List.filterMap_eq_map, List.map_map]
  rfl

/-- Claim C5 amended: permuting the ranking-result entries leaves the per
model position multisets, hence the set of aggregate entries (model, average
rank, count), unchanged: the two aggregate lists are permutations of each
other and both are sorted by average rank. The relative order of models with
tied averages follows first-appearance insertion order and may change under
the permutation (see the counterexample). -/
theorem C5_aggregate_perm (l1 l2 : List RankEntry) (ltm : List (String × String))
    (hp : l1.Perm l2) :
    List.Perm (calculate_aggregate_rankings l1 ltm) (calculate_aggregate_rankings l2 ltm) ∧
    List.Sorted aggLE (calculate_aggregate_rankings l1 ltm) ∧
    List.Sorted aggLE (calculate_aggregate_rankings l2 ltm) := by
  have hpos := posM_perm l1 l2 ltm hp
  have inv1 := modelPositions_inv l1 ltm
  have inv2 := modelPositions_inv l2 ltm
  have hkeys : List.Perm ((modelPositions l1 ltm).map Prod.fst)
      ((modelPositions l2 ltm).map Prod.fst) := by
    rw [List.perm_ext_iff_of_nodup inv1.1 inv2.1]
    intro x
    rw [← posM_ne_zero_iff _ inv1, ← posM_ne_zero_iff _ inv2, hpos x]
  have hfun : ∀ x ∈ (modelPositions l2 ltm).map Prod.fst,
      entryOfPos (modelPositions l1 ltm) x = entryOfPos (modelPositions l2 ltm) x := by
    intro x _
    rw [entryOfPos.eq_def, entryOfPos.eq_def, hpos x]
  have hent : List.Perm (aggEntries (modelPositions l1 ltm))
      (aggEntries (modelPositions l2 ltm)) := by
    rw [aggEntries_eq _ inv1, aggEntries_eq _ inv2]
    rw [← List.map_congr_left hfun]
    exact hkeys.map _
  refine ⟨?_, ?_, ?_⟩
  · exact ((List.perm_insertionSort aggLE _).trans hent).trans
      (List.perm_insertionSort aggLE _).symm
  · exact List.sorted_insertionSort aggLE _
  · exact List.sorted_insertionSort aggLE _

theorem roundTo2_three_halves : roundTo2 ((3 : ℚ) / 2) = 3 / 2 := by
  have h150 : (100 : ℚ) * (3 / 2) = ((150 : ℤ) : ℚ) := by norm_num
  have hfl : ratFloor (((150 : ℤ) : ℚ)) = 150 := by
    unfold ratFloor
    rw [Rat.num_intCast, Rat.den_intCast]
    simp
  have hrhe : roundHalfEven (((150 : ℤ) : ℚ)) = 150 := by
    unfold roundHalfEven
    rw [hfl, if_pos (by norm_num)]
  unfold roundTo2
  rw [h150, hrhe]
  norm_num

theorem aggEntries_pair (a b : String) :
    aggEntries [(a, [1, 2]), (b, [2, 1])]
      = [AggEntry.mk a ((3 : ℚ) / 2) 2, AggEntry.mk b ((3 : ℚ) / 2) 2] := by
  have he : aggEntries [(a, [1, 2]), (b, [2, 1])]
      = [AggEntry.mk a (roundTo2 ((((3 : ℕ)) : ℚ) / (((2 : ℕ)) : ℚ))) 2,
         AggEntry.mk b (roundTo2 ((((3 : ℕ)) : ℚ) / (((2 : ℕ)) : ℚ))) 2] := rfl
  have harg : ((((3 : ℕ)) : ℚ) / (((2 : ℕ)) : ℚ)) = (3 : ℚ) / 2 := by norm_num
  rw [he, harg, roundTo2_three_halves]

theorem sort_tied_pair (a b : String) :
    List.insertionSort aggLE [AggEntry.mk a ((3 : ℚ) / 2) 2, AggEntry.mk b ((3 : ℚ) / 2) 2]
      = [AggEntry.mk a ((3 : ℚ) / 2) 2, AggEntry.mk b ((3 : ℚ) / 2) 2] := by
  simp only [List.insertionSort, List.orderedInsert]
  rw [if_pos (show aggLE (AggEntry.mk a ((3 : ℚ) / 2) 2) (AggEntry.mk b ((3 : ℚ) / 2) 2)
    from le_refl ((3 : ℚ) / 2))]

/-- Claim C5 counterexample: two rankers whose rankings are opposite produce
tied averages; swapping the two ranking entries (leaving each entry's rank
list unchanged) swaps the relative order of the two tied models in the
aggregate list. -/
theorem C5_counterexample :
    List.Perm
      [RankEntry.mk "x" "FINAL RANKING:\n1. Response A\n2. Response B",
       RankEntry.mk "y" "FINAL RANKING:\n1. Response B\n2. Response A"]
      [RankEntry.mk "y" "FINAL RANKING:\n1. Response B\n2. Response A",
       RankEntry.mk "x" "FINAL RANKING:\n1. Response A\n2. Response B"] ∧
    calculate_aggregate_rankings
      [RankEntry.mk "x" "FINAL RANKING:\n1. Response A\n2. Response B",
       RankEntry.mk "y" "FINAL RANKING:\n1. Response B\n2. Response A"]
      [("Response A", "mA"), ("Response B", "mB")]
      = [AggEntry.mk "mA" ((3 : ℚ) / 2) 2, AggEntry.mk "mB" ((3 : ℚ) / 2) 2] ∧
    calculate_aggregate_rankings
      [RankEntry.mk "y" "FINAL RANKING:\n1. Response B\n2. Response A",
       RankEntry.mk "x" "FINAL RANKING:\n1. Response A\n2. Response B"]
      [("Response A", "mA"), ("Response B", "mB")]
      = [AggEntry.mk "mB" ((3 : ℚ) / 2) 2, AggEntry.mk "mA" ((3 : ℚ) / 2) 2] ∧
    calculate_aggregate_rankings
      [RankEntry.mk "x" "FINAL RANKING:\n1. Response A\n2. Response B",
       RankEntry.mk "y" "FINAL RANKING:\n1. Response B\n2. Response A"]
      [("Response A", "mA"), ("Response B", "mB")]
      ≠ calculate_aggregate_rankings
      [RankEntry.mk "y" "FINAL RANKING:\n1. Response B\n2. Response A",
       RankEntry.mk "x" "FINAL RANKING:\n1. Response A\n2. Response B"]
      [("Response A", "mA"), ("Response B", "mB")] := by
  have hm1 : modelPositions
      [RankEntry.mk "x" "FINAL RANKING:\n1. Response A\n2. Response B",
       RankEntry.mk "y" "FINAL RANKING:\n1. Response B\n2. Response A"]
      [("Response A", "mA"), ("Response B", "mB")]
      = [("mA", [1, 2]), ("mB", [2, 1])] := by decide
  have hm2 : modelPositions
      [RankEntry.mk "y" "FINAL RANKING:\n1. Response B\n2. Response A",
       RankEntry.mk "x" "FINAL RANKING:\n1. Response A\n2. Response B"]
      [("Response A", "mA"), ("Response B", "mB")]
      = [("mB", [1, 2]), ("mA", [2, 1])] := by decide
  have hc1 : calculate_aggregate_rankings
      [RankEntry.mk "x" "FINAL RANKING:\n1. Response A\n2. Response B",
       RankEntry.mk "y" "FINAL RANKING:\n1. Response B\n2. Response A"]
      [("Response A", "mA"), ("Response B", "mB")]
      = [AggEntry.mk "mA" ((3 : ℚ) / 2) 2, AggEntry.mk "mB" ((3 : ℚ) / 2) 2] := by
    rw [calculate_aggregate_rankings.eq_def, hm1, aggEntries_pair, sort_tied_pair]
  have hc2 : calculate_aggregate_rankings
      [RankEntry.mk "y" "FINAL RANKING:\n1. Response B\n2. Response A",
       RankEntry.mk "x" "FINAL RANKING:\n1. Response A\n2. Response B"]
      [("Response A", "mA"), ("Response B", "mB")]
      = [AggEntry.mk "mB" ((3 : ℚ) / 2) 2, AggEntry.mk "mA" ((3 : ℚ) / 2) 2] := by
    rw [calculate_aggregate_rankings.eq_def, hm2, aggEntries_pair, sort_tied_pair]
  refine ⟨List.Perm.swap _ _ _, hc1, hc2, ?_⟩
  rw [hc1, hc2]
  intro h
  have := List.head_eq_of_cons_eq h
  simp only [AggEntry.mk.injEq] at this
  exact absurd this.1 (by decide)

/-- Witness for C5 at the two-ranker example above. -/
theorem C5_aggregate_perm_witness :
    List.Perm
      [RankEntry.mk "x" "FINAL RANKING:\n1. Response A\n2. Response B",
       RankEntry.mk "y" "FINAL RANKING:\n1. Response B\n2. Response A"]
      [RankEntry.mk "y" "FINAL RANKING:\n1. Response B\n2. Response A",
       RankEntry.mk "x" "FINAL RANKING:\n1. Response A\n2. Response B"] ∧
    List.Perm
      (calculate_aggregate_rankings
        [RankEntry.mk "x" "FINAL RANKING:\n1. Response A\n2. Response B",
         RankEntry.mk "y" "FINAL RANKING:\n1. Response B\n2. Response A"]
        [("Response A", "mA"), ("Response B", "mB")])
      (calculate_aggregate_rankings
        [RankEntry.mk "y" "FINAL RANKING:\n1. Response B\n2. Response A",
         RankEntry.mk "x" "FINAL RANKING:\n1. Response A\n2. Response B"]
        [("Response A", "mA"), ("Response B", "mB")]) :=
  ⟨List.Perm.swap _ _ _,
    (C5_aggregate_perm _ _ [("Response A", "mA"), ("Response B", "mB")]
      (List.Perm.swap _ _ _)).1⟩

/-! ## Fake-image stripping: no-match identity, newline collapsing, idempotence -/

theorem optNone {α : Type} (o : Option α) (h : o.isSome = false) : o = none := by
  cases o with
  | none => rfl
  | some v => simp at h

theorem any_false_mem {α : Type} (l : List α) (p : α → Bool) (h : l.any p = false)
    (x : α) (hx : x ∈ l) : p x = false := by
  cases hp : p x with
  | false => rfl
  | true =>
    have : l.any p = true := List.any_eq_true.mpr ⟨x, hx, hp⟩
    rw [this] at h
    exact absurd h (by simp)

theorem subAllA_id (pred : List Char → Bool) :
    ∀ (f : ℕ) (t : List Char), (∀ u, u <:+ t → imgMatch pred u = none) →
      subAllA pred f t = t := by
  intro f
  induction f with
  | zero => intro t _; rfl
  | succ f ih =>
    intro t hm
    cases t with
    | nil => rfl
    | cons c cs =>
      rw [subAllA, hm (c :: cs) (List.suffix_refl _)]
      show c :: subAllA pred f cs = c :: cs
      exact congrArg (List.cons c)
        (ih cs (fun u hu => hm u (hu.trans (List.suffix_cons c cs))))

theorem subAll_id (pred : List Char → Bool) (t : List Char)
    (hm : ∀ u, u <:+ t → imgMatch pred u = none) : subAll pred t = t :=
  subAllA_id pred t.length t hm

theorem noMatch_of_hasAny (t : List Char) (h : hasAnyImgMatch t = false) (u : List Char)
    (hu : u <:+ t) :
    imgMatch urlMatches1 u = none ∧ imgMatch urlMatches2 u = none ∧
    imgMatch urlMatches3 u = none ∧ imgMatch urlMatches4 u = none ∧
    imgMatch urlMatches5 u = none := by
  unfold hasAnyImgMatch at h
  have hp := any_false_mem _ _ h u ((List.mem_tails u t).mpr hu)
  simp only [Bool.or_eq_false_iff] at hp
  obtain ⟨⟨⟨⟨h1, h2⟩, h3⟩, h4⟩, h5⟩ := hp
  exact ⟨optNone _ h1, optNone _ h2, optNone _ h3, optNone _ h4, optNone _ h5⟩

theorem strip_noMatch (s : String) (h : hasAnyImgMatch s.data = false) :
    strip_fake_images s = ⟨pyStrip (collapse s.data)⟩ := by
  unfold strip_fake_images
  rw [subAll_id urlMatches1 s.data (fun u hu => (noMatch_of_hasAny s.data h u hu).1)]
  rw [subAll_id urlMatches2 s.data (fun u hu => (noMatch_of_hasAny s.data h u hu).2.1)]
  rw [subAll_id urlMatches3 s.data (fun u hu => (noMatch_of_hasAny s.data h u hu).2.2.1)]
  rw [subAll_id urlMatches4 s.data (fun u hu => (noMatch_of_hasAny s.data h u hu).2.2.2.1)]
  rw [subAll_id urlMatches5 s.data (fun u hu => (noMatch_of_hasAny s.data h u hu).2.2.2.2)]

theorem countNL_drop : ∀ t : List Char, countNL (t.drop (countNL t)) = 0 := by
  intro t
  induction t with
  | nil => rfl
  | cons c cs ih =>
    by_cases hc : c = '\n'
    · have hcnt : countNL (c :: cs) = 1 + countNL cs := by
        simp only [countNL, if_pos hc]
      rw [hcnt, Nat.add_comm 1 (countNL cs), List.drop_succ_cons]
      exact ih
    · have hcnt : countNL (c :: cs) = 0 := by
        simp only [countNL, if_neg hc]
      rw [hcnt, List.drop_zero]
      exact hcnt

theorem collapseA_spec : ∀ (f : ℕ) (t : List Char), t.length ≤ f →
    hasTriple (collapseA f t) = false ∧
    countNL (collapseA f t) = min (countNL t) 2 := by
  intro f
  induction f with
  | zero =>
    intro t ht
    have h0 : t = [] := List.eq_nil_of_length_eq_zero (Nat.le_zero.mp ht)
    subst h0
    exact ⟨rfl, by simp [countNL]⟩
  | succ f ih =>
    intro t ht
    cases t with
    | nil => exact ⟨rfl, by simp [countNL]⟩
    | cons c cs =>
      have hlcs : cs.length ≤ f := by
        simp only [List.length_cons] at ht
        omega
      rw [collapseA]
      by_cases hc : c = '\n' ∧ 2 ≤ countNL cs
      · obtain ⟨hc1, hc2⟩ := hc
        subst hc1
        rw [if_pos ⟨rfl, hc2⟩]
        have hd : countNL (cs.drop (countNL cs)) = 0 := countNL_drop cs
        have hld : (cs.drop (countNL cs)).length ≤ f := by
          rw [List.length_drop]
          omega
        obtain ⟨ih1, ih2⟩ := ih (cs.drop (countNL cs)) hld
        have h0 : countNL (collapseA f (cs.drop (countNL cs))) = 0 := by
          rw [ih2, hd]
          omega
        constructor
        · simp [hasTriple, countNL, h0, ih1]
        · have l1 : countNL ('\n' :: '\n' :: collapseA f (cs.drop (countNL cs))) = 2 := by
            simp [countNL, h0]
          have l2 : countNL ('\n' :: cs) = 1 + countNL cs := by
            simp [countNL]
          rw [l1, l2]
          omega
      · rw [if_neg hc]
        obtain ⟨ih1, ih2⟩ := ih cs hlcs
        constructor
        · simp only [hasTriple, ih1, Bool.or_false]
          rw [Bool.and_eq_false_iff]
          by_cases hcn : c = '\n'
          · refine Or.inr ?_
            simp only [decide_eq_false_iff_not]
            rw [ih2]
            have h2 : ¬ 2 ≤ countNL cs := fun hx => hc ⟨hcn, hx⟩
            omega
          · exact Or.inl (by simp only [decide_eq_false_iff_not]; exact hcn)
        · simp only [countNL]
          by_cases hcn : c = '\n'
          · rw [if_pos hcn, if_pos hcn, ih2]
            have h2 : ¬ 2 ≤ countNL cs := fun hx => hc ⟨hcn, hx⟩
            omega
          · rw [if_neg hcn, if_neg hcn]
            omega

theorem countNL_prefix_le : ∀ (x w : List Char), x <+: w → countNL x ≤ countNL w := by
  intro x
  induction x with
  | nil => intro w _; exact Nat.zero_le _
  | cons c y ih =>
    intro w hp
    obtain ⟨rest, hrest⟩ := hp
    subst hrest
    rw [List.cons_append]
    simp only [countNL]
    by_cases hcn : c = '\n'
    · rw [if_pos hcn, if_pos hcn]
      exact Nat.add_le_add_left (ih (y ++ rest) ⟨rest, rfl⟩) 1
    · rw [if_neg hcn, if_neg hcn]

theorem hasTriple_suffix : ∀ (w x : List Char), x <:+ w → hasTriple w = false →
    hasTriple x = false := by
  intro w
  induction w with
  | nil =>
    intro x hx _
    rw [List.suffix_nil.mp hx]
    rfl
  | cons c cs ih =>
    intro x hx hw
    rcases List.suffix_cons_iff.mp hx with h1 | h1
    · rw [h1]
      exact hw
    · simp only [hasTriple, Bool.or_eq_false_iff] at hw
      exact ih x h1 hw.2

theorem hasTriple_prefix : ∀ (x w : List Char), x <+: w → hasTriple w = false →
    hasTriple x = false := by
  intro x
  induction x with
  | nil => intro w _ _; rfl
  | cons c y ih =>
    intro w hp hw
    obtain ⟨rest, hrest⟩ := hp
    subst hrest
    rw [List.cons_append] at hw
    simp only [hasTriple, Bool.or_eq_false_iff, Bool.and_eq_false_iff,
      decide_eq_false_iff_not] at hw ⊢
    obtain ⟨hw1, hw2⟩ := hw
    refine ⟨?_, ih (y ++ rest) ⟨rest, rfl⟩ hw2⟩
    rcases hw1 with h1 | h1
    · exact Or.inl h1
    · exact Or.inr (fun h2 => h1 (le_trans h2 (countNL_prefix_le y (y ++ rest) ⟨rest, rfl⟩)))

theorem collapseA_id : ∀ (f : ℕ) (t : List Char), hasTriple t = false →
    collapseA f t = t := by
  intro f
  induction f with
  | zero => intro t _; rfl
  | succ f ih =>
    intro t ht
    cases t with
    | nil => rfl
    | cons c cs =>
      rw [collapseA]
      simp only [hasTriple, Bool.or_eq_false_iff, Bool.and_eq_false_iff,
        decide_eq_false_iff_not] at ht
      obtain ⟨ht1, ht2⟩ := ht
      have hcond : ¬ (c = '\n' ∧ 2 ≤ countNL cs) := by
        rintro ⟨hcn, h2⟩
        rcases ht1 with h | h
        · exact h hcn
        · exact h h2
      rw [if_neg hcond]
      exact congrArg (List.cons c) (ih cs ht2)

theorem dropWhile_head_false (t : List Char) (h : t.dropWhile isWhite = t) :
    (List.rdropWhile isWhite t).dropWhile isWhite = List.rdropWhile isWhite t := by
  cases hv : List.rdropWhile isWhite t with
  | nil => rfl
  | cons c vs =>
    have hpre : List.rdropWhile isWhite t <+: t := List.rdropWhile_prefix isWhite t
    rw [hv] at hpre
    obtain ⟨rest, hrest⟩ := hpre
    have hcw : isWhite c = false := by
      cases hb : isWhite c with
      | false => rfl
      | true =>
        rw [← hrest, List.cons_append, List.dropWhile_cons, if_pos hb] at h
        have hlen := congrArg List.length h
        have hle : (List.dropWhile isWhite (vs ++ rest)).length ≤ (vs ++ rest).length :=
          (List.dropWhile_suffix isWhite).length_le
        simp only [List.length_cons] at hlen
        omega
    rw [List.dropWhile_cons, if_neg (by rw [hcw]; simp)]

theorem pyStrip_idem (t : List Char) : pyStrip (pyStrip t) = pyStrip t := by
  unfold pyStrip
  rw [dropWhile_head_false (t.dropWhile isWhite) (List.dropWhile_idempotent isWhite t)]
  exact List.rdropWhile_idempotent isWhite (t.dropWhile isWhite)

theorem hasTriple_pyStrip (t : List Char) (h : hasTriple t = false) :
    hasTriple (pyStrip t) = false :=
  hasTriple_prefix _ _ (List.rdropWhile_prefix isWhite _)
    (hasTriple_suffix _ _ (List.dropWhile_suffix isWhite) h)

theorem strip_data (s : String) : (strip_fake_images s).data
    = pyStrip (collapse (subAll urlMatches5 (subAll urlMatches4 (subAll urlMatches3
        (subAll urlMatches2 (subAll urlMatches1 s.data)))))) := rfl

theorem hasTriple_strip (s : String) : hasTriple (strip_fake_images s).data = false := by
  rw [strip_data]
  exact hasTriple_pyStrip _ (collapseA_spec _ _ (le_refl _)).1

/-- Claim C9 counterexample: removal of an inner placeholder image can splice
the surrounding text into a new placeholder image, so a second stripping pass
removes more (idempotence fails); and a markdown image whose URL matches no
placeholder pattern is removed when it sits inside the URL region of a
placeholder match, because the regexes only stop the URL at a closing
parenthesis. -/
theorem C9_counterexample :
    strip_fake_images (strip_fake_images
        "![x](https://![a](https://placeholder.x/b)via.placeholder.com/z)")
      ≠ strip_fake_images
        "![x](https://![a](https://placeholder.x/b)via.placeholder.com/z)" ∧
    containsSub "![b](http://y.com/ok)".data
        "![a](https://x.com?text=![b](http://y.com/ok))".data = true ∧
    containsSub "![b](http://y.com/ok)".data
        (strip_fake_images "![a](https://x.com?text=![b](http://y.com/ok))").data
      = false ∧
    urlMatches1 "http://y.com/ok".data = false ∧
    urlMatches2 "http://y.com/ok".data = false ∧
    urlMatches3 "http://y.com/ok".data = false ∧
    urlMatches4 "http://y.com/ok".data = false ∧
    urlMatches5 "http://y.com/ok".data = false := by
  refine ⟨by decide, by decide, by decide, by decide, by decide, by decide,
    by decide, by decide⟩

/-- Claim C9 amended: stripping is idempotent on any text whose stripped form
matches no placeholder image pattern (in particular whenever one pass removes
every match without creating a new one), and on a text with no placeholder
match anywhere it removes no image at all: the result is just the text with
long newline runs collapsed and surrounding whitespace stripped. -/
theorem C9_strip_fake_images (s : String) :
    (hasAnyImgMatch (strip_fake_images s).data = false →
      strip_fake_images (strip_fake_images s) = strip_fake_images s) ∧
    (hasAnyImgMatch s.data = false →
      strip_fake_images s = ⟨pyStrip (collapse s.data)⟩) := by
  constructor
  · intro h
    rw [strip_noMatch (strip_fake_images s) h]
    have h1 : collapse (strip_fake_images s).data = (strip_fake_images s).data :=
      collapseA_id _ _ (hasTriple_strip s)
    rw [h1]
    have h2 : pyStrip (strip_fake_images s).data = (strip_fake_images s).data := by
      rw [strip_data]
      exact pyStrip_idem _
    rw [h2]
  · exact strip_noMatch s

/-- Witness for C9 at a plain text without any placeholder image. -/
theorem C9_strip_fake_images_witness :
    hasAnyImgMatch (strip_fake_images "hello world").data = false ∧
    hasAnyImgMatch "hello world".data = false ∧
    strip_fake_images (strip_fake_images "hello world")
      = strip_fake_images "hello world" ∧
    strip_fake_images "hello world" = ⟨pyStrip (collapse "hello world".data)⟩ :=
  ⟨by decide, by decide,
    (C9_strip_fake_images "hello world").1 (by decide),
    (C9_strip_fake_images "hello world").2 (by decide)⟩

end Council
